import Mathlib

/-!
Verification of the bitcask-style key/value store (courses/rust/projects,
`project-3-impl` and `project-4-impl`).

Part 1: the record codec.  Log records are the Rust enum `Cmd`
(src/courses/rust/projects/project-3-impl/src/cmd.rs), serialized by
`serde_json::to_writer` as externally tagged JSON objects:

  Cmd::Set    { key, value }  ↦  \x7b"Set":\x7b"key":K,"value":V\x7d\x7d
  Cmd::Remove { key }         ↦  \x7b"Remove":\x7b"key":K\x7d\x7d

where K, V are JSON string literals with serde_json's escaping: `"` ↦ `\"`,
`\` ↦ `\\`, the named control escapes `\b \t \n \f \r`, and `\u00XX`
(lowercase hex) for all other chars below 0x20.  The decoder below parses
exactly this grammar; it agrees with serde_json's parser on every input that
occurs in the theorems (encoder outputs and their truncations).
-/

/-- The log record / command type, mirroring Rust `enum Cmd`. -/
inductive Cmd where
  | set (key value : String)
  | remove (key : String)
deriving DecidableEq, Repr

/-- Lowercase hex digit for a value below 16, as serde_json emits in
unicode escapes. -/
def hexDig (n : Nat) : Char :=
  if n < 10 then Char.ofNat ('0'.toNat + n) else Char.ofNat ('a'.toNat + n - 10)

/-- Value of a hex digit character (serde_json accepts either case). -/
def hexVal? (c : Char) : Option Nat :=
  if '0' ≤ c ∧ c ≤ '9' then some (c.toNat - '0'.toNat)
  else if 'a' ≤ c ∧ c ≤ 'f' then some (c.toNat - 'a'.toNat + 10)
  else if 'A' ≤ c ∧ c ≤ 'F' then some (c.toNat - 'A'.toNat + 10)
  else none

/-- serde_json's escaping of a single character inside a JSON string. -/
def escapeChar (c : Char) : List Char :=
  if c = '"' then ['\\', '"']
  else if c = '\\' then ['\\', '\\']
  else if c = '\x08' then ['\\', 'b']
  else if c = '\x09' then ['\\', 't']
  else if c = '\x0a' then ['\\', 'n']
  else if c = '\x0c' then ['\\', 'f']
  else if c = '\x0d' then ['\\', 'r']
  else if c.toNat < 0x20 then
    ['\\', 'u', '0', '0', hexDig (c.toNat / 16), hexDig (c.toNat % 16)]
  else [c]

/-- Escape a whole string body. -/
def escape : List Char → List Char
  | [] => []
  | c :: s => escapeChar c ++ escape s

/-- A JSON string literal: opening quote, escaped body, closing quote. -/
def encodeJString (s : String) : List Char :=
  '"' :: (escape s.data ++ ['"'])

/-- Literal prefix of a serialized `Cmd::Set` up to the key string. -/
def setPre : List Char :=
  ['\x7b', '"', 'S', 'e', 't', '"', ':', '\x7b', '"', 'k', 'e', 'y', '"', ':']

/-- Literal prefix of a serialized `Cmd::Remove` up to the key string. -/
def remPre : List Char :=
  ['\x7b', '"', 'R', 'e', 'm', 'o', 'v', 'e', '"', ':', '\x7b', '"', 'k', 'e', 'y', '"', ':']

/-- Literal between the key and the value of a serialized `Cmd::Set`. -/
def midPre : List Char := [',', '"', 'v', 'a', 'l', 'u', 'e', '"', ':']

/-- The two closing braces ending every serialized `Cmd`. -/
def endBraces : List Char := ['\x7d', '\x7d']

/-- serde_json's encoding of one `Cmd` record, as a character list. -/
def encodeCmd : Cmd → List Char
  | .set k v => setPre ++ encodeJString k ++ midPre ++ encodeJString v ++ endBraces
  | .remove k => remPre ++ encodeJString k ++ endBraces

/-- Concatenation of the encodings of a record sequence: the content of a
log file that received exactly these appends. -/
def encodeAll : List Cmd → List Char
  | [] => []
  | c :: cs => encodeCmd c ++ encodeAll cs

/-- Resolution of a single JSON escape character (the char after `\`),
excluding the `\uXXXX` form. -/
def unescChar (e : Char) : Option Char :=
  if e = '"' then some '"'
  else if e = '\\' then some '\\'
  else if e = '/' then some '/'
  else if e = 'b' then some '\x08'
  else if e = 't' then some '\x09'
  else if e = 'n' then some '\x0a'
  else if e = 'f' then some '\x0c'
  else if e = 'r' then some '\x0d'
  else none

/-- Parse the body of a JSON string (after the opening quote) up to and
including the closing quote; returns the decoded body and the rest of the
input.  Raw control characters are rejected, as serde_json does. -/
def parseBody : List Char → Option (List Char × List Char)
  | [] => none
  | c :: rest =>
    if c = '"' then some ([], rest)
    else if c = '\\' then
      match rest with
      | [] => none
      | e :: rest2 =>
        if e = 'u' then
          match rest2 with
          | h1 :: h2 :: h3 :: h4 :: rest3 =>
            match hexVal? h1, hexVal? h2, hexVal? h3, hexVal? h4 with
            | some a, some b, some c2, some d =>
              match parseBody rest3 with
              | some (cs, r) => some (Char.ofNat (((a * 16 + b) * 16 + c2) * 16 + d) :: cs, r)
              | none => none
            | _, _, _, _ => none
          | _ => none
        else
          match unescChar e with
          | some u =>
            match parseBody rest2 with
            | some (cs, r) => some (u :: cs, r)
            | none => none
          | none => none
    else if c.toNat < 0x20 then none
    else
      match parseBody rest with
      | some (cs, r) => some (c :: cs, r)
      | none => none

/-- Parse a JSON string literal (expects the opening quote). -/
def parseJString (xs : List Char) : Option (String × List Char) :=
  match xs with
  | c :: rest =>
    if c = '"' then (parseBody rest).map fun p => (String.mk p.1, p.2) else none
  | [] => none

/-- Strip an expected literal prefix from the input. -/
def stripPre : List Char → List Char → Option (List Char)
  | [], xs => some xs
  | _ :: _, [] => none
  | p :: ps, x :: xs => if x = p then stripPre ps xs else none

/-- Parse one serialized `Cmd` from the head of the input, returning the
record and the unconsumed rest; models one step of serde_json's
`StreamDeserializer` on a log produced by `encodeCmd`. -/
def parseCmd (xs : List Char) : Option (Cmd × List Char) :=
  match stripPre setPre xs with
  | some r1 =>
    (parseJString r1).bind fun kr =>
      (stripPre midPre kr.2).bind fun r3 =>
        (parseJString r3).bind fun vr =>
          (stripPre endBraces vr.2).map fun r5 => (.set kr.1 vr.1, r5)
  | none =>
    (stripPre remPre xs).bind fun r1 =>
      (parseJString r1).bind fun kr =>
        (stripPre endBraces kr.2).map fun r3 => (.remove kr.1, r3)

/-- Decode one record that must occupy the whole input: models
`serde_json::from_reader` on a `take(len)` reader, which demands EOF after
the value. -/
def decodeOne (xs : List Char) : Option Cmd :=
  match parseCmd xs with
  | some (c, []) => some c
  | _ => none

/-! ### Codec lemmas: round trip, streaming extension, consumed length -/

theorem hexVal?_hexDig {n : Nat} (h : n < 16) : hexVal? (hexDig n) = some n := by
  interval_cases n <;> decide

theorem stripPre_eq_some {p xs r : List Char} : stripPre p xs = some r ↔ xs = p ++ r := by
  induction p generalizing xs with
  | nil =>
    simp [stripPre, eq_comm]
  | cons a p ih =>
    cases xs with
    | nil => simp [stripPre]
    | cons x xs =>
      simp only [stripPre, List.cons_append, List.cons.injEq]
      by_cases hx : x = a
      · simp [hx, ih]
      · simp [hx]

theorem stripPre_self (p xs : List Char) : stripPre p (p ++ xs) = some xs :=
  stripPre_eq_some.mpr rfl

theorem stripPre_ext {p xs r : List Char} (h : stripPre p xs = some r) (ys : List Char) :
    stripPre p (xs ++ ys) = some (r ++ ys) := by
  rw [stripPre_eq_some] at h ⊢
  rw [h, List.append_assoc]

theorem stripPre_length {p xs r : List Char} (h : stripPre p xs = some r) :
    r.length + p.length = xs.length := by
  rw [stripPre_eq_some] at h
  subst h
  simp [List.length_append]
  omega

/-- Shape lemma: a quote closes the string body. -/
theorem parseBody_quote (s : List Char) : parseBody ('"' :: s) = some ([], s) := by
  rw [parseBody.eq_def]
  simp

/-- Shape lemma: a short (non-unicode) escape. -/
theorem parseBody_esc {e u : Char} (he : ¬ e = 'u') (hu : unescChar e = some u)
    (s : List Char) :
    parseBody ('\\' :: e :: s) = (parseBody s).map fun p => (u :: p.1, p.2) := by
  rw [parseBody.eq_def]
  simp only [he, hu, if_neg, if_false, reduceIte]
  cases parseBody s <;> simp

/-- Shape lemma: a `\u` escape followed by four hex digits. -/
theorem parseBody_hex {h1 h2 h3 h4 : Char} {a b c2 d : Nat}
    (e1 : hexVal? h1 = some a) (e2 : hexVal? h2 = some b)
    (e3 : hexVal? h3 = some c2) (e4 : hexVal? h4 = some d) (s : List Char) :
    parseBody ('\\' :: 'u' :: h1 :: h2 :: h3 :: h4 :: s) =
      (parseBody s).map fun p =>
        (Char.ofNat (((a * 16 + b) * 16 + c2) * 16 + d) :: p.1, p.2) := by
  rw [parseBody.eq_def]
  simp only [e1, e2, e3, e4, reduceIte]
  cases parseBody s <;> simp

/-- Shape lemma: a plain (unescaped, non-control) character. -/
theorem parseBody_plain {c : Char} (hq : ¬ c = '"') (hb : ¬ c = '\\')
    (hc : ¬ c.toNat < 0x20) (s : List Char) :
    parseBody (c :: s) = (parseBody s).map fun p => (c :: p.1, p.2) := by
  rw [parseBody.eq_def]
  simp only [hq, hb, hc, if_neg, if_false, reduceIte]
  cases parseBody s <;> simp

theorem parseBody_ext (ys : List Char) : ∀ {xs cs r : List Char},
    parseBody xs = some (cs, r) → parseBody (xs ++ ys) = some (cs, r ++ ys) := by
  intro xs
  induction xs using parseBody.induct with
  | case1 => intro cs r h; exact absurd h (by simp [parseBody])
  | case2 s =>
    intro cs r h
    rw [parseBody_quote] at h
    injection h with h
    injection h with h1 h2
    subst h1; subst h2
    simpa using parseBody_quote (s ++ ys)
  | case3 _ => intro cs r h; exact absurd h (by rw [parseBody.eq_def]; simp)
  | case4 h1 h2 h3 h4 rest3 a b c2 d e4 e3 e2 e1 cs0 r0 hpb hne ih =>
    intro cs r h
    rw [parseBody_hex e1 e2 e3 e4, hpb] at h
    injection h with h
    injection h with hl hr
    subst hl; subst hr
    have := ih hpb
    simp only [List.cons_append]
    rw [parseBody_hex e1 e2 e3 e4, this]
    rfl
  | case5 h1 h2 h3 h4 rest3 a b c2 d e4 e3 e2 e1 hpb hne ih =>
    intro cs r h
    rw [parseBody_hex e1 e2 e3 e4, hpb] at h
    exact absurd h (by simp)
  | case6 h1 h2 h3 h4 rest3 hfail hne =>
    intro cs r h
    cases ex1 : hexVal? h1 <;> cases ex2 : hexVal? h2 <;> cases ex3 : hexVal? h3 <;>
      cases ex4 : hexVal? h4 <;>
      rw [parseBody.eq_def] at h <;>
      simp only [ex1, ex2, ex3, ex4, reduceIte] at h
    all_goals
      first
      | exact (hfail _ _ _ _ ex1 ex2 ex3 ex4).elim
      | simp at h
  | case7 s hshape hne =>
    intro cs r h
    rw [parseBody.eq_def] at h
    simp only [reduceIte] at h
    match s, h with
    | h1 :: h2 :: h3 :: h4 :: rest3, h => exact absurd rfl (hshape h1 h2 h3 h4 rest3)
  | case8 e s hne u hu cs0 r0 hpb hq ih =>
    intro cs r h
    rw [parseBody_esc hne hu, hpb] at h
    injection h with h
    injection h with hl hr
    subst hl; subst hr
    have := ih hpb
    simp only [List.cons_append]
    rw [parseBody_esc hne hu, this]
    rfl
  | case9 e s hne u hu hpb hq ih =>
    intro cs r h
    rw [parseBody_esc hne hu, hpb] at h
    exact absurd h (by simp)
  | case10 e s hne hu =>
    intro cs r h
    rw [parseBody.eq_def] at h
    simp [hne, hu] at h
  | case11 c s hq hb hc =>
    intro cs r h
    rw [parseBody.eq_def] at h
    simp [hq, hb, hc] at h
  | case12 c s hq hb hc cs0 r0 hpb ih =>
    intro cs r h
    rw [parseBody_plain hq hb hc, hpb] at h
    injection h with h
    injection h with hl hr
    subst hl; subst hr
    have := ih hpb
    simp only [List.cons_append]
    rw [parseBody_plain hq hb hc, this]
    rfl
  | case13 c s hq hb hc hpb ih =>
    intro cs r h
    rw [parseBody_plain hq hb hc, hpb] at h
    exact absurd h (by simp)

theorem parseBody_length : ∀ {xs cs r : List Char},
    parseBody xs = some (cs, r) → r.length < xs.length := by
  intro xs
  induction xs using parseBody.induct with
  | case1 => intro cs r h; exact absurd h (by simp [parseBody])
  | case2 s =>
    intro cs r h
    rw [parseBody_quote] at h
    injection h with h
    injection h with h1 h2
    subst h2; simp
  | case3 _ => intro cs r h; exact absurd h (by rw [parseBody.eq_def]; simp)
  | case4 h1 h2 h3 h4 rest3 a b c2 d e4 e3 e2 e1 cs0 r0 hpb hne ih =>
    intro cs r h
    rw [parseBody_hex e1 e2 e3 e4, hpb] at h
    injection h with h
    injection h with hl hr
    subst hr
    have := ih hpb
    simp only [List.length_cons]
    omega
  | case5 h1 h2 h3 h4 rest3 a b c2 d e4 e3 e2 e1 hpb hne ih =>
    intro cs r h
    rw [parseBody_hex e1 e2 e3 e4, hpb] at h
    exact absurd h (by simp)
  | case6 h1 h2 h3 h4 rest3 hfail hne =>
    intro cs r h
    cases ex1 : hexVal? h1 <;> cases ex2 : hexVal? h2 <;> cases ex3 : hexVal? h3 <;>
      cases ex4 : hexVal? h4 <;>
      rw [parseBody.eq_def] at h <;>
      simp only [ex1, ex2, ex3, ex4, reduceIte] at h
    all_goals
      first
      | exact (hfail _ _ _ _ ex1 ex2 ex3 ex4).elim
      | simp at h
  | case7 s hshape hne =>
    intro cs r h
    rw [parseBody.eq_def] at h
    simp only [reduceIte] at h
    match s, h with
    | h1 :: h2 :: h3 :: h4 :: rest3, h => exact absurd rfl (hshape h1 h2 h3 h4 rest3)
  | case8 e s hne u hu cs0 r0 hpb hq ih =>
    intro cs r h
    rw [parseBody_esc hne hu, hpb] at h
    injection h with h
    injection h with hl hr
    subst hr
    have := ih hpb
    simp only [List.length_cons]
    omega
  | case9 e s hne u hu hpb hq ih =>
    intro cs r h
    rw [parseBody_esc hne hu, hpb] at h
    exact absurd h (by simp)
  | case10 e s hne hu =>
    intro cs r h
    rw [parseBody.eq_def] at h
    simp [hne, hu] at h
  | case11 c s hq hb hc =>
    intro cs r h
    rw [parseBody.eq_def] at h
    simp [hq, hb, hc] at h
  | case12 c s hq hb hc cs0 r0 hpb ih =>
    intro cs r h
    rw [parseBody_plain hq hb hc, hpb] at h
    injection h with h
    injection h with hl hr
    subst hr
    have := ih hpb
    simp only [List.length_cons]
    omega
  | case13 c s hq hb hc hpb ih =>
    intro cs r h
    rw [parseBody_plain hq hb hc, hpb] at h
    exact absurd h (by simp)

/-- Core round trip: parsing an escaped body (plus the closing quote)
recovers the original characters. -/
theorem parseBody_escape (s : List Char) (rest : List Char) :
    parseBody (escape s ++ '"' :: rest) = some (s, rest) := by
  induction s with
  | nil => simpa [escape] using parseBody_quote rest
  | cons c s ih =>
    show parseBody ((escapeChar c ++ escape s) ++ '"' :: rest) = _
    rw [List.append_assoc]
    by_cases h1 : c = '"'
    · subst h1
      rw [show escapeChar '"' = ['\\', '"'] from rfl]
      rw [show (['\\', '"'] : List Char) ++ (escape s ++ '"' :: rest) =
        '\\' :: '"' :: (escape s ++ '"' :: rest) from rfl]
      rw [parseBody_esc (by decide) (by decide : unescChar '"' = some '"'), ih]
      rfl
    · by_cases h2 : c = '\\'
      · subst h2
        rw [show escapeChar '\\' = ['\\', '\\'] from rfl]
        rw [show (['\\', '\\'] : List Char) ++ (escape s ++ '"' :: rest) =
          '\\' :: '\\' :: (escape s ++ '"' :: rest) from rfl]
        rw [parseBody_esc (by decide) (by decide : unescChar '\\' = some '\\'), ih]
        rfl
      · by_cases h3 : c = '\x08'
        · subst h3
          rw [show escapeChar '\x08' = ['\\', 'b'] from rfl]
          rw [show (['\\', 'b'] : List Char) ++ (escape s ++ '"' :: rest) =
            '\\' :: 'b' :: (escape s ++ '"' :: rest) from rfl]
          rw [parseBody_esc (by decide) (by decide : unescChar 'b' = some '\x08'), ih]
          rfl
        · by_cases h4 : c = '\x09'
          · subst h4
            rw [show escapeChar '\x09' = ['\\', 't'] from rfl]
            rw [show (['\\', 't'] : List Char) ++ (escape s ++ '"' :: rest) =
              '\\' :: 't' :: (escape s ++ '"' :: rest) from rfl]
            rw [parseBody_esc (by decide) (by decide : unescChar 't' = some '\x09'), ih]
            rfl
          · by_cases h5 : c = '\x0a'
            · subst h5
              rw [show escapeChar '\x0a' = ['\\', 'n'] from rfl]
              rw [show (['\\', 'n'] : List Char) ++ (escape s ++ '"' :: rest) =
                '\\' :: 'n' :: (escape s ++ '"' :: rest) from rfl]
              rw [parseBody_esc (by decide) (by decide : unescChar 'n' = some '\x0a'), ih]
              rfl
            · by_cases h6 : c = '\x0c'
              · subst h6
                rw [show escapeChar '\x0c' = ['\\', 'f'] from rfl]
                rw [show (['\\', 'f'] : List Char) ++ (escape s ++ '"' :: rest) =
                  '\\' :: 'f' :: (escape s ++ '"' :: rest) from rfl]
                rw [parseBody_esc (by decide) (by decide : unescChar 'f' = some '\x0c'), ih]
                rfl
              · by_cases h7 : c = '\x0d'
                · subst h7
                  rw [show escapeChar '\x0d' = ['\\', 'r'] from rfl]
                  rw [show (['\\', 'r'] : List Char) ++ (escape s ++ '"' :: rest) =
                    '\\' :: 'r' :: (escape s ++ '"' :: rest) from rfl]
                  rw [parseBody_esc (by decide) (by decide : unescChar 'r' = some '\x0d'), ih]
                  rfl
                · by_cases h8 : c.toNat < 0x20
                  · rw [show escapeChar c =
                      ['\\', 'u', '0', '0', hexDig (c.toNat / 16), hexDig (c.toNat % 16)] from by
                        simp [escapeChar, h1, h2, h3, h4, h5, h6, h7, h8]]
                    rw [show (['\\', 'u', '0', '0', hexDig (c.toNat / 16), hexDig (c.toNat % 16)] :
                        List Char) ++ (escape s ++ '"' :: rest) =
                      '\\' :: 'u' :: '0' :: '0' :: hexDig (c.toNat / 16) ::
                        hexDig (c.toNat % 16) :: (escape s ++ '"' :: rest) from rfl]
                    have hv0 : hexVal? '0' = some 0 := by decide
                    have hhi : hexVal? (hexDig (c.toNat / 16)) = some (c.toNat / 16) :=
                      hexVal?_hexDig (by omega)
                    have hlo : hexVal? (hexDig (c.toNat % 16)) = some (c.toNat % 16) :=
                      hexVal?_hexDig (by omega)
                    rw [parseBody_hex hv0 hv0 hhi hlo, ih]
                    have hval : ((0 * 16 + 0) * 16 + c.toNat / 16) * 16 + c.toNat % 16 =
                        c.toNat := by omega
                    have hval2 : c.toNat / 16 * 16 + c.toNat % 16 = c.toNat := by omega
                    simp [hval, hval2, Char.ofNat_toNat]
                  · rw [show escapeChar c = [c] from by
                      simp [escapeChar, h1, h2, h3, h4, h5, h6, h7, h8]]
                    rw [show ([c] : List Char) ++ (escape s ++ '"' :: rest) =
                      c :: (escape s ++ '"' :: rest) from rfl]
                    rw [parseBody_plain h1 h2 h8, ih]
                    rfl

theorem parseJString_encode (s : String) (rest : List Char) :
    parseJString (encodeJString s ++ rest) = some (s, rest) := by
  show parseJString ('"' :: (escape s.data ++ ['"']) ++ rest) = _
  have : ('"' :: (escape s.data ++ ['"'])) ++ rest =
      '"' :: (escape s.data ++ '"' :: rest) := by simp
  rw [this]
  simp [parseJString, parseBody_escape]

theorem parseJString_ext {xs : List Char} {s : String} {r : List Char}
    (h : parseJString xs = some (s, r)) (ys : List Char) :
    parseJString (xs ++ ys) = some (s, r ++ ys) := by
  cases xs with
  | nil => simp [parseJString] at h
  | cons c t =>
    by_cases hc : c = '"'
    · subst hc
      cases hpb : parseBody t with
      | none => simp [parseJString, hpb] at h
      | some p =>
        obtain ⟨cs, r0⟩ := p
        simp only [parseJString, reduceIte, hpb, Option.map_some', Option.some.injEq,
          Prod.mk.injEq] at h
        obtain ⟨h1, h2⟩ := h
        subst h1; subst h2
        rw [List.cons_append]
        simp [parseJString, parseBody_ext ys hpb]
    · simp [parseJString, hc] at h

theorem parseJString_length {xs : List Char} {s : String} {r : List Char}
    (h : parseJString xs = some (s, r)) : r.length < xs.length := by
  cases xs with
  | nil => simp [parseJString] at h
  | cons c t =>
    by_cases hc : c = '"'
    · subst hc
      cases hpb : parseBody t with
      | none => simp [parseJString, hpb] at h
      | some p =>
        obtain ⟨cs, r0⟩ := p
        simp only [parseJString, reduceIte, hpb, Option.map_some', Option.some.injEq,
          Prod.mk.injEq] at h
        obtain ⟨h1, h2⟩ := h
        subst h2
        have := parseBody_length hpb
        simp only [List.length_cons]
        omega
    · simp [parseJString, hc] at h

theorem stripPre_setPre_remPre (xs : List Char) : stripPre setPre (remPre ++ xs) = none := rfl

theorem parseCmd_encode (c : Cmd) (rest : List Char) :
    parseCmd (encodeCmd c ++ rest) = some (c, rest) := by
  cases c with
  | set k v =>
    have hshape : encodeCmd (Cmd.set k v) ++ rest =
        setPre ++ (encodeJString k ++ (midPre ++ (encodeJString v ++ (endBraces ++ rest)))) := by
      simp [encodeCmd, List.append_assoc]
    rw [hshape]
    simp [parseCmd, stripPre_self, parseJString_encode]
  | remove k =>
    have hshape : encodeCmd (Cmd.remove k) ++ rest =
        remPre ++ (encodeJString k ++ (endBraces ++ rest)) := by
      simp [encodeCmd, List.append_assoc]
    rw [hshape]
    simp [parseCmd, stripPre_setPre_remPre, stripPre_self, parseJString_encode]

theorem parseCmd_encode_nil (c : Cmd) : parseCmd (encodeCmd c) = some (c, []) := by
  simpa using parseCmd_encode c []

theorem parseCmd_ext {xs : List Char} {c : Cmd} {r : List Char}
    (h : parseCmd xs = some (c, r)) (ys : List Char) :
    parseCmd (xs ++ ys) = some (c, r ++ ys) := by
  unfold parseCmd at h ⊢
  cases hs : stripPre setPre xs with
  | some r1 =>
    rw [hs] at h
    rw [stripPre_ext hs ys]
    dsimp only at h ⊢
    cases hk : parseJString r1 with
    | none => rw [hk] at h; simp at h
    | some kr =>
      obtain ⟨k, r2⟩ := kr
      rw [hk] at h
      rw [parseJString_ext hk ys]
      try simp only [Option.some_bind] at h ⊢
      cases hm : stripPre midPre r2 with
      | none => rw [hm] at h; simp at h
      | some r3 =>
        rw [hm] at h
        rw [stripPre_ext hm ys]
        try simp only [Option.some_bind] at h ⊢
        cases hv : parseJString r3 with
        | none => rw [hv] at h; simp at h
        | some vr =>
          obtain ⟨v, r4⟩ := vr
          rw [hv] at h
          rw [parseJString_ext hv ys]
          try simp only [Option.some_bind] at h ⊢
          cases he : stripPre endBraces r4 with
          | none => rw [he] at h; simp at h
          | some r5 =>
            rw [he] at h
            rw [stripPre_ext he ys]
            simp only [Option.map_some', Option.some.injEq, Prod.mk.injEq] at h ⊢
            exact ⟨h.1, by rw [h.2]⟩
  | none =>
    rw [hs] at h
    dsimp only at h
    cases hr : stripPre remPre xs with
    | none => rw [hr] at h; simp at h
    | some r1 =>
      rw [hr] at h
      have hxs : xs = remPre ++ r1 := stripPre_eq_some.mp hr
      subst hxs
      rw [List.append_assoc, stripPre_setPre_remPre, stripPre_self]
      dsimp only
      try simp only [Option.some_bind] at h ⊢
      cases hk : parseJString r1 with
      | none => rw [hk] at h; simp at h
      | some kr =>
        obtain ⟨k, r2⟩ := kr
        rw [hk] at h
        rw [parseJString_ext hk ys]
        try simp only [Option.some_bind] at h ⊢
        cases he : stripPre endBraces r2 with
        | none => rw [he] at h; simp at h
        | some r3 =>
          rw [he] at h
          rw [stripPre_ext he ys]
          simp only [Option.map_some', Option.some.injEq, Prod.mk.injEq] at h ⊢
          exact ⟨h.1, by rw [h.2]⟩

theorem parseCmd_length {xs : List Char} {c : Cmd} {r : List Char}
    (h : parseCmd xs = some (c, r)) : r.length < xs.length := by
  unfold parseCmd at h
  cases hs : stripPre setPre xs with
  | some r1 =>
    rw [hs] at h
    dsimp only at h
    have l1 := stripPre_length hs
    cases hk : parseJString r1 with
    | none => rw [hk] at h; simp at h
    | some kr =>
      obtain ⟨k, r2⟩ := kr
      rw [hk] at h
      have l2 := parseJString_length hk
      try simp only [Option.some_bind] at h
      cases hm : stripPre midPre r2 with
      | none => rw [hm] at h; simp at h
      | some r3 =>
        rw [hm] at h
        have l3 := stripPre_length hm
        try simp only [Option.some_bind] at h
        cases hv : parseJString r3 with
        | none => rw [hv] at h; simp at h
        | some vr =>
          obtain ⟨v, r4⟩ := vr
          rw [hv] at h
          have l4 := parseJString_length hv
          try simp only [Option.some_bind] at h
          cases he : stripPre endBraces r4 with
          | none => rw [he] at h; simp at h
          | some r5 =>
            rw [he] at h
            have l5 := stripPre_length he
            simp only [Option.map_some', Option.some.injEq, Prod.mk.injEq] at h
            have : r5 = r := h.2
            subst this
            simp only [setPre, midPre, endBraces, List.length_cons] at l1 l3 l5
            omega
  | none =>
    rw [hs] at h
    dsimp only at h
    cases hr : stripPre remPre xs with
    | none => rw [hr] at h; simp at h
    | some r1 =>
      rw [hr] at h
      have l1 := stripPre_length hr
      try simp only [Option.some_bind] at h
      cases hk : parseJString r1 with
      | none => rw [hk] at h; simp at h
      | some kr =>
        obtain ⟨k, r2⟩ := kr
        rw [hk] at h
        have l2 := parseJString_length hk
        try simp only [Option.some_bind] at h
        cases he : stripPre endBraces r2 with
        | none => rw [he] at h; simp at h
        | some r3 =>
          rw [he] at h
          have l3 := stripPre_length he
          simp only [Option.map_some', Option.some.injEq, Prod.mk.injEq] at h
          have : r3 = r := h.2
          subst this
          simp only [remPre, endBraces, List.length_cons] at l1 l3
          omega

theorem encodeCmd_ne_nil (c : Cmd) : encodeCmd c ≠ [] := by
  cases c <;> simp [encodeCmd, setPre, remPre]

/-- A nonempty strict prefix of an encoding fails to parse: the parser is a
deterministic streaming parser, so a successful parse of the prefix would
extend to a successful parse of the whole encoding with leftover input. -/
theorem parseCmd_prefix_none {t : List Char} {c : Cmd} (hpre : t <+: encodeCmd c)
    (hne : t ≠ encodeCmd c) : parseCmd t = none := by
  cases hp : parseCmd t with
  | none => rfl
  | some p =>
    obtain ⟨c', r⟩ := p
    obtain ⟨d, hd⟩ := hpre
    have hext := parseCmd_ext hp d
    rw [hd, parseCmd_encode_nil] at hext
    injection hext with hext2
    injection hext2 with hc2 hr2
    have hdnil : d = [] := by
      rcases List.append_eq_nil.mp hr2.symm with ⟨_, h2⟩
      exact h2
    rw [hdnil, List.append_nil] at hd
    exact absurd hd hne

/-- Decode a whole log as a stream of records, as serde_json's
`StreamDeserializer` (used by `load_log`) does: records are parsed back to
back, clean end of input ends the stream, and any parse failure — including
a truncated final record — is a fatal decode error, modeled as `none`. -/
def decodeStream (xs : List Char) : Option (List Cmd) :=
  if hxs : xs = [] then some []
  else
    match hp : parseCmd xs with
    | some p =>
      match decodeStream p.2 with
      | some cs => some (p.1 :: cs)
      | none => none
    | none => none
termination_by xs.length
decreasing_by exact parseCmd_length hp

theorem decodeStream_some {xs : List Char} {c : Cmd} {r : List Char}
    (hne : xs ≠ []) (hp : parseCmd xs = some (c, r)) :
    decodeStream xs = (decodeStream r).map fun cs => c :: cs := by
  rw [decodeStream.eq_def, dif_neg hne]
  split
  · rename_i p heq
    rw [hp] at heq
    injection heq with heq
    subst heq
    cases decodeStream r <;> rfl
  · rename_i heq
    rw [hp] at heq
    exact absurd heq (by simp)

theorem decodeStream_none {xs : List Char} (hne : xs ≠ [])
    (hp : parseCmd xs = none) : decodeStream xs = none := by
  rw [decodeStream.eq_def, dif_neg hne]
  split
  · rename_i p heq
    rw [hp] at heq
    exact absurd heq (by simp)
  · rfl

theorem decodeStream_encodeAll (cs : List Cmd) : decodeStream (encodeAll cs) = some cs := by
  induction cs with
  | nil => simp [encodeAll, decodeStream]
  | cons c cs ih =>
    have hne : encodeCmd c ++ encodeAll cs ≠ [] := by
      intro hcontra
      exact encodeCmd_ne_nil c (List.append_eq_nil.mp hcontra).1
    rw [show encodeAll (c :: cs) = encodeCmd c ++ encodeAll cs from rfl]
    rw [decodeStream_some hne (parseCmd_encode c (encodeAll cs)), ih]
    rfl

theorem decodeStream_truncated {c : Cmd} {t : List Char} (cs : List Cmd)
    (hne : t ≠ []) (hpre : t <+: encodeCmd c) (hfull : t ≠ encodeCmd c) :
    decodeStream (encodeAll cs ++ t) = none := by
  induction cs with
  | nil =>
    rw [show encodeAll [] ++ t = t from by simp [encodeAll]]
    exact decodeStream_none hne (parseCmd_prefix_none hpre hfull)
  | cons c0 cs ih =>
    have hshape : encodeAll (c0 :: cs) ++ t = encodeCmd c0 ++ (encodeAll cs ++ t) := by
      simp [encodeAll]
    have hne2 : encodeCmd c0 ++ (encodeAll cs ++ t) ≠ [] := by
      intro hcontra
      exact encodeCmd_ne_nil c0 (List.append_eq_nil.mp hcontra).1
    rw [hshape, decodeStream_some hne2 (parseCmd_encode c0 (encodeAll cs ++ t)), ih]
    rfl

/-- C8: decoding the encoding of any record yields the record back;
decoding the concatenation of any sequence of encodings as a stream yields
exactly that sequence in order; and appending truncated trailing bytes (a
nonempty strict prefix of some record's encoding) makes the stream decode
fail instead of producing a record. -/
theorem C8_codec_roundtrip :
    (∀ c : Cmd, decodeOne (encodeCmd c) = some c) ∧
    (∀ cs : List Cmd, decodeStream (encodeAll cs) = some cs) ∧
    (∀ (cs : List Cmd) (c : Cmd) (t : List Char), t ≠ [] → t <+: encodeCmd c →
      t ≠ encodeCmd c → decodeStream (encodeAll cs ++ t) = none) := by
  refine ⟨fun c => ?_, decodeStream_encodeAll, fun cs c t h1 h2 h3 =>
    decodeStream_truncated cs h1 h2 h3⟩
  simp [decodeOne, parseCmd_encode_nil]

/-- C8 witness: the round trip and the truncation failure evaluated at
concrete records. -/
theorem C8_codec_roundtrip_witness :
    decodeOne (encodeCmd (.set "a" "1")) = some (.set "a" "1") ∧
    decodeStream (encodeAll [.set "a" "1", .remove "a"]) =
      some [.set "a" "1", .remove "a"] ∧
    decodeStream (encodeAll [.set "a" "1"] ++ ['\x7b', '"', 'R']) = none :=
  ⟨C8_codec_roundtrip.1 _, C8_codec_roundtrip.2.1 _,
    C8_codec_roundtrip.2.2 [.set "a" "1"] (.remove "a") ['\x7b', '"', 'R']
      (by decide) (by decide) (by decide)⟩

/-!
Part 2: the bitcask engine, a shallow embedding of
src/courses/rust/projects/project-4-impl/src/engines/kvs_engine.rs.

File contents are `List Char` (the bytes our codec writes are ASCII except
inside JSON strings, where raw UTF-8 passes through unchanged, so chars are
a faithful unit).  The three maps — the on-disk directory of `<id>.log`
files, the keydir (`DashMap<String, CmdPos>`), and the shared reader cache
(`DashMap<u64, BufReaderWithPos<File>>,` of which only the tracked position
matters) — are association lists with at most one entry per key.  Panics
(`expect`) and fallible I/O are modeled in an error sum.
-/

def alistLookup {κ α : Type} [DecidableEq κ] : List (κ × α) → κ → Option α
  | [], _ => none
  | (k', v) :: t, k => if k = k' then some v else alistLookup t k

/-- Map insert: replaces the entry in place if the key is present, appends
otherwise; also returns the displaced value (`DashMap::insert`). -/
def alistInsert {κ α : Type} [DecidableEq κ] : List (κ × α) → κ → α → List (κ × α) × Option α
  | [], k, v => ([(k, v)], none)
  | (k', v') :: t, k, v =>
    if k = k' then ((k, v) :: t, some v')
    else
      let p := alistInsert t k v
      ((k', v') :: p.1, p.2)

/-- Map remove: drops the key and returns the displaced value
(`DashMap::remove`). -/
def alistRemove {κ α : Type} [DecidableEq κ] (l : List (κ × α)) (k : κ) :
    List (κ × α) × Option α :=
  (l.filter fun p => decide (¬ p.1 = k), alistLookup l k)

/-- The error kinds an engine call can surface: the `KvsError` variants the
claims mention, serde/IO failures, and the two `expect` panics in the
source, each identified by its source location. -/
inductive EngErr where
  | keyNotFound
  | commandNotSupported
  | serdeErr
  | ioErr
  | panicReaderMissing
  | panicRemoveRace
deriving DecidableEq, Repr

/-- A keydir entry `(file_id, offset, length)`, mirroring `struct CmdPos`. -/
structure CmdPos where
  file_id : Nat
  kv_pos : Nat
  len : Nat
deriving DecidableEq, Repr

def COMPACT_THRESHOLD : Nat := 1024 * 1024

/-- The whole store state: the log directory on disk, the shared keydir,
the shared reader-cache (id ↦ tracked position), and the writer's fields
`current_file_id`, `uncompact`, its `BufWriterWithPos` position, and the
shared `check_point` atomic. -/
structure EngineState where
  files : List (Nat × List Char)
  key_dir : List (String × CmdPos)
  readers : List (Nat × Nat)
  current_file_id : Nat
  uncompact : Nat
  writer_pos : Nat
  check_point : Nat
deriving DecidableEq, Repr

namespace KvsEngine

/-- Append bytes to a log file (the active writer's buffered writes, made
visible at `flush`). -/
def appendToFile (files : List (Nat × List Char)) (fid : Nat) (data : List Char) :
    List (Nat × List Char) :=
  (alistInsert files fid (((alistLookup files fid).getD []) ++ data)).1

/-- `new_log_file` of project-4: `OpenOptions::create(true).read(true)
.write(true)` on `<fid>.log` — creates the file empty when absent, leaves
it intact when present — and wraps a positioned writer at offset 0.
Unlike project-3's variant, it does NOT register a reader for the file. -/
def new_log_file (files : List (Nat × List Char)) (fid : Nat) : List (Nat × List Char) :=
  match alistLookup files fid with
  | some _ => files
  | none => (alistInsert files fid []).1

/-- `KvsReader::check_point`: repeatedly look at one cached entry and evict
it while its file id is below the shared `check_point`; stop at the first
entry at or above it. -/
def check_point_evict (cp : Nat) : List (Nat × Nat) → List (Nat × Nat)
  | [] => []
  | (fid, pos) :: rest => if cp ≤ fid then (fid, pos) :: rest else check_point_evict cp rest

/-- `KvsReader::read`: honor the checkpoint, look up the cached reader for
`cmd_pos.file_id` (the `if !contains_key` branch in the source is empty, so
a missing reader hits `.expect("inconsistency! ...")` — a panic), seek to
the span, read `len` bytes, and decode them as a single record. -/
def read (s : EngineState) (cp : CmdPos) : Except EngErr (Option String) × EngineState :=
  let rs := check_point_evict s.check_point s.readers
  match alistLookup rs cp.file_id with
  | none => (.error .panicReaderMissing, { s with readers := rs })
  | some _ =>
    let content := (alistLookup s.files cp.file_id).getD []
    let span := (content.drop cp.kv_pos).take cp.len
    let rs2 := (alistInsert rs cp.file_id (cp.kv_pos + span.length)).1
    let s2 := { s with readers := rs2 }
    match decodeOne span with
    | some (.set _ v) => (.ok (some v), s2)
    | some (.remove _) => (.error .commandNotSupported, s2)
    | none => (.error .serdeErr, s2)

/-- `KvsEngine::get`: consult the keydir; absent keys return `Ok(None)`
immediately, present keys delegate to the reader. -/
def get (s : EngineState) (k : String) : Except EngErr (Option String) × EngineState :=
  match alistLookup s.key_dir k with
  | some cp => read s cp
  | none => (.ok none, s)

/-- The body of `KvsWriter::compact`'s keydir loop: for each entry, find
the cached reader for its source file (`.expect("can't find log file;")`),
copy the `len`-byte span into the compact file, and rewrite the entry in
place to `(compact_id, compact_pos, len)`, advancing `compact_pos` by
`len`.  Returns the rewritten keydir (in order), the reader cache with
updated positions, and the compact file's accumulated content. -/
def compactLoop (files : List (Nat × List Char)) (compact_id : Nat) :
    List (String × CmdPos) → List (Nat × Nat) → Nat → List Char →
    Except EngErr (List (String × CmdPos) × List (Nat × Nat) × List Char)
  | [], readers, _, content => .ok ([], readers, content)
  | (k, cp) :: rest, readers, compact_pos, content =>
    match alistLookup readers cp.file_id with
    | none => .error .panicReaderMissing
    | some _ =>
      let src := (alistLookup files cp.file_id).getD []
      let span := (src.drop cp.kv_pos).take cp.len
      let readers2 := (alistInsert readers cp.file_id (cp.kv_pos + span.length)).1
      match compactLoop files compact_id rest readers2 (compact_pos + cp.len) (content ++ span) with
      | .error e => .error e
      | .ok (kd, rs, cont) =>
        .ok ((k, ⟨compact_id, compact_pos, cp.len⟩) :: kd, rs, cont)

/-- `KvsWriter::compact`: allocate `compact_id = current + 1` and a new
active id `current + 2`, open writers for both, copy every live span into
the compact file, flush it, then remove every reader-cached id below
`compact_id` from the cache and unlink its file, and reset `uncompact`.
The shared `check_point` is left untouched (the publication step is the
dangling comment in the source). -/
def compact (s : EngineState) : Except EngErr Unit × EngineState :=
  let compact_file_id := s.current_file_id + 1
  let new_current := s.current_file_id + 2
  let files1 := new_log_file s.files new_current
  let files2 := new_log_file files1 compact_file_id
  match compactLoop files2 compact_file_id s.key_dir s.readers 0 [] with
  | .error e =>
    (.error e, { s with files := files2, current_file_id := new_current, writer_pos := 0 })
  | .ok (kd, rs, cont) =>
    let files3 := (alistInsert files2 compact_file_id cont).1
    let rm_ids := (rs.map Prod.fst).filter fun fid => decide (fid < compact_file_id)
    if rm_ids.all fun fid => (alistLookup files3 fid).isSome then
      let readers2 := rs.filter fun p => decide (¬ p.1 < compact_file_id)
      let files4 := files3.filter fun p => decide (¬ p.1 ∈ rm_ids)
      (.ok (), { files := files4, key_dir := kd, readers := readers2,
                 current_file_id := new_current, uncompact := 0, writer_pos := 0,
                 check_point := s.check_point })
    else
      (.error .ioErr, { s with files := files3, key_dir := kd, readers := rs,
                               current_file_id := new_current, writer_pos := 0 })

/-- `KvsWriter::set` behind `KvsEngine::set`'s writer lock: record the
writer position, append the encoded `Set` record and flush, insert the
keydir entry `(current_file_id, pos, new_pos - pos)` crediting a displaced
entry's length to `uncompact`, and compact when the threshold is reached. -/
def set (s : EngineState) (k v : String) : Except EngErr Unit × EngineState :=
  let enc := encodeCmd (.set k v)
  let pos := s.writer_pos
  let files1 := appendToFile s.files s.current_file_id enc
  let ins := alistInsert s.key_dir k ⟨s.current_file_id, pos, enc.length⟩
  let unc := s.uncompact + (match ins.2 with | some old => old.len | none => 0)
  let s1 := { s with files := files1, key_dir := ins.1, uncompact := unc,
                     writer_pos := pos + enc.length }
  if COMPACT_THRESHOLD ≤ unc then compact s1 else (.ok (), s1)

/-- `KvsEngine::remove`: fail with `KeyNotFound` when the key is absent
from the keydir; otherwise `KvsWriter::remove` appends the encoded `Remove`
record and flushes, removes the keydir entry (its absence at this point
would be the `expect("key not found")` panic), adds the displaced entry's
length to `uncompact`, and compacts at the threshold. -/
def remove (s : EngineState) (k : String) : Except EngErr Unit × EngineState :=
  if (alistLookup s.key_dir k).isSome then
    let enc := encodeCmd (.remove k)
    let files1 := appendToFile s.files s.current_file_id enc
    let rm := alistRemove s.key_dir k
    match rm.2 with
    | none =>
      (.error .panicRemoveRace,
        { s with files := files1, writer_pos := s.writer_pos + enc.length })
    | some old =>
      let unc := s.uncompact + old.len
      let s1 := { s with files := files1, key_dir := rm.1, uncompact := unc,
                         writer_pos := s.writer_pos + enc.length }
      if COMPACT_THRESHOLD ≤ unc then compact s1 else (.ok (), s1)
  else (.error .keyNotFound, s)

end KvsEngine

namespace KvsEngine

/-- `load_log`: stream-decode one log file from offset 0, replaying each
record into the keydir — `Set` inserts `(file_id, posi..new_pos)`, `Remove`
deletes — and summing the compactable bytes (displaced entries' lengths,
plus each `Remove` record's own length).  A decode failure aborts the
whole `open`. -/
def load_log (fid : Nat) (content : List Char) (posi : Nat)
    (kd : List (String × CmdPos)) (unc : Nat) :
    Except EngErr (List (String × CmdPos) × Nat) :=
  if hc : content = [] then .ok (kd, unc)
  else
    match hp : parseCmd content with
    | none => .error .serdeErr
    | some p =>
      let new_pos := posi + (content.length - p.2.length)
      match p.1 with
      | .remove k =>
        let rm := alistRemove kd k
        load_log fid p.2 new_pos rm.1
          (unc + (match rm.2 with | some old => old.len | none => 0) + (new_pos - posi))
      | .set k _ =>
        let ins := alistInsert kd k ⟨fid, posi, new_pos - posi⟩
        load_log fid p.2 new_pos ins.1
          (unc + (match ins.2 with | some old => old.len | none => 0))
termination_by content.length
decreasing_by all_goals exact parseCmd_length hp

/-- Insertion into a sorted id list. -/
def insertSorted (n : Nat) : List Nat → List Nat
  | [] => [n]
  | m :: ms => if n ≤ m then n :: m :: ms else m :: insertSorted n ms

/-- `sorted_file_list`: the `<id>.log` ids found in the directory, sorted
ascending (`sort_unstable`). -/
def sorted_file_list (disk : List (Nat × List Char)) : List Nat :=
  (disk.map Prod.fst).foldr insertSorted []

/-- The per-file loop of `open`: for each history file id in ascending
order, open a positioned reader, replay it with `load_log`, accumulate the
compactable-byte count, and cache the reader. -/
def loadAll (disk : List (Nat × List Char)) :
    List Nat → List (String × CmdPos) → List (Nat × Nat) → Nat →
    Except EngErr (List (String × CmdPos) × List (Nat × Nat) × Nat)
  | [], kd, rs, unc => .ok (kd, rs, unc)
  | fid :: rest, kd, rs, unc =>
    let content := (alistLookup disk fid).getD []
    match load_log fid content 0 kd 0 with
    | .error e => .error e
    | .ok (kd2, dunc) =>
      loadAll disk rest kd2 ((alistInsert rs fid content.length).1) (unc + dunc)

/-- `KvsEngine::open` on a directory whose `.log` files are `disk`:
replay every history file in ascending id order, pick
`max(existing ids) + 1` (or 1) as the new active file id, create its empty
log file, register a reader for it, and return the engine state with
`check_point` at 0. -/
def openStore (disk : List (Nat × List Char)) : Except EngErr EngineState :=
  let ids := sorted_file_list disk
  match loadAll disk ids [] [] 0 with
  | .error e => .error e
  | .ok (kd, rs, unc) =>
    let current := (ids.getLast?.getD 0) + 1
    let files1 := new_log_file disk current
    let rs2 := (alistInsert rs current 0).1
    .ok { files := files1, key_dir := kd, readers := rs2,
          current_file_id := current, uncompact := unc, writer_pos := 0,
          check_point := 0 }

end KvsEngine

/-! ### Association-list lemmas -/

section Alist

variable {κ α : Type} [DecidableEq κ]

theorem alistLookup_insert_self (l : List (κ × α)) (k : κ) (v : α) :
    alistLookup (alistInsert l k v).1 k = some v := by
  induction l with
  | nil => simp [alistInsert, alistLookup]
  | cons p t ih =>
    obtain ⟨k', v'⟩ := p
    by_cases hk : k = k'
    · simp [alistInsert, alistLookup, hk]
    · simp [alistInsert, alistLookup, hk, ih]

theorem alistLookup_insert_ne (l : List (κ × α)) {k k' : κ} (v : α) (h : ¬ k' = k) :
    alistLookup (alistInsert l k v).1 k' = alistLookup l k' := by
  induction l with
  | nil => simp [alistInsert, alistLookup, h]
  | cons p t ih =>
    obtain ⟨k0, v0⟩ := p
    by_cases hk : k = k0
    · subst hk
      simp [alistInsert, alistLookup, h]
    · by_cases hk' : k' = k0
      · simp [alistInsert, alistLookup, hk, hk']
      · simp [alistInsert, alistLookup, hk, hk', ih]

theorem alistInsert_snd (l : List (κ × α)) (k : κ) (v : α) :
    (alistInsert l k v).2 = alistLookup l k := by
  induction l with
  | nil => simp [alistInsert, alistLookup]
  | cons p t ih =>
    obtain ⟨k0, v0⟩ := p
    by_cases hk : k = k0
    · simp [alistInsert, alistLookup, hk]
    · simp [alistInsert, alistLookup, hk, ih]

theorem alistLookup_remove_self (l : List (κ × α)) (k : κ) :
    alistLookup (alistRemove l k).1 k = none := by
  induction l with
  | nil => simp [alistRemove, alistLookup]
  | cons p t ih =>
    obtain ⟨k0, v0⟩ := p
    by_cases hk : k0 = k
    · simpa [alistRemove, List.filter, hk] using ih
    · have : ¬ k = k0 := fun hcontra => hk hcontra.symm
      simpa [alistRemove, List.filter, hk, alistLookup, this] using ih

theorem alistLookup_remove_ne (l : List (κ × α)) {k k' : κ} (h : ¬ k' = k) :
    alistLookup (alistRemove l k).1 k' = alistLookup l k' := by
  induction l with
  | nil => simp [alistRemove, alistLookup]
  | cons p t ih =>
    obtain ⟨k0, v0⟩ := p
    by_cases hk : k0 = k
    · subst hk
      have : ¬ k' = k0 := h
      simpa [alistRemove, List.filter, alistLookup, this] using ih
    · by_cases hk' : k' = k0
      · simp [alistRemove, List.filter, hk, alistLookup, hk']
      · simpa [alistRemove, List.filter, hk, alistLookup, hk'] using ih

theorem alistRemove_snd (l : List (κ × α)) (k : κ) :
    (alistRemove l k).2 = alistLookup l k := rfl

theorem alistInsert_map_fst_of_isSome (l : List (κ × α)) (k : κ) (v : α)
    (h : (alistLookup l k).isSome) :
    (alistInsert l k v).1.map Prod.fst = l.map Prod.fst := by
  induction l with
  | nil => simp [alistLookup] at h
  | cons p t ih =>
    obtain ⟨k0, v0⟩ := p
    by_cases hk : k = k0
    · simp [alistInsert, hk]
    · simp only [alistLookup, if_neg hk] at h
      simp [alistInsert, hk, ih h]

theorem alistLookup_isSome_iff_mem_fst (l : List (κ × α)) (k : κ) :
    (alistLookup l k).isSome ↔ k ∈ l.map Prod.fst := by
  induction l with
  | nil => simp [alistLookup]
  | cons p t ih =>
    obtain ⟨k0, v0⟩ := p
    by_cases hk : k = k0
    · simp [alistLookup, hk]
    · simp [alistLookup, hk, ih]

theorem alistLookup_map_value (l : List (κ × α)) (k : κ) {β : Type} (f : α → β) :
    alistLookup (l.map fun p => (p.1, f p.2)) k = (alistLookup l k).map f := by
  induction l with
  | nil => simp [alistLookup]
  | cons p t ih =>
    obtain ⟨k0, v0⟩ := p
    by_cases hk : k = k0
    · simp [alistLookup, hk]
    · simp [alistLookup, hk, ih]

end Alist

/-! ### Compaction loop characterization -/

/-- The keydir rewrite compaction performs, as the spec states it: each
entry, in iteration order, becomes `(compact_id, compact_pos, len)` where
`compact_pos` is the running sum of the lengths of previously copied
entries. -/
def compactRewrite (cid : Nat) : List (String × CmdPos) → Nat → List (String × CmdPos)
  | [], _ => []
  | (k, cp) :: rest, pos => (k, ⟨cid, pos, cp.len⟩) :: compactRewrite cid rest (pos + cp.len)

/-- The bytes compaction copies: the concatenation of every entry's span,
in iteration order. -/
def spansOf (files : List (Nat × List Char)) : List (String × CmdPos) → List Char
  | [] => []
  | (_, cp) :: rest =>
    ((((alistLookup files cp.file_id).getD []).drop cp.kv_pos).take cp.len) ++ spansOf files rest

theorem compactLoop_ok (files : List (Nat × List Char)) (cid : Nat) :
    ∀ (entries : List (String × CmdPos)) (readers : List (Nat × Nat)) (pos : Nat)
      (cont : List Char),
    (∀ p ∈ entries, (alistLookup readers p.2.file_id).isSome) →
    ∃ rs, KvsEngine.compactLoop files cid entries readers pos cont =
        .ok (compactRewrite cid entries pos, rs, cont ++ spansOf files entries) ∧
      rs.map Prod.fst = readers.map Prod.fst := by
  intro entries
  induction entries with
  | nil =>
    intro readers pos cont _
    exact ⟨readers, by simp [KvsEngine.compactLoop, compactRewrite, spansOf], rfl⟩
  | cons p rest ih =>
    intro readers pos cont h
    obtain ⟨k, cp⟩ := p
    have hhead : (alistLookup readers cp.file_id).isSome := h (k, cp) (by simp)
    obtain ⟨rpos, hr⟩ := Option.isSome_iff_exists.mp hhead
    have hids : ((alistInsert readers cp.file_id
        (cp.kv_pos + ((((alistLookup files cp.file_id).getD []).drop cp.kv_pos).take
          cp.len).length)).1).map Prod.fst = readers.map Prod.fst :=
      alistInsert_map_fst_of_isSome _ _ _ hhead
    have hrest : ∀ q ∈ rest, (alistLookup ((alistInsert readers cp.file_id
        (cp.kv_pos + ((((alistLookup files cp.file_id).getD []).drop cp.kv_pos).take
          cp.len).length)).1) q.2.file_id).isSome := by
      intro q hq
      rw [alistLookup_isSome_iff_mem_fst, hids, ← alistLookup_isSome_iff_mem_fst]
      exact h q (by simp [hq])
    obtain ⟨rs, hloop, hrs⟩ := ih _ (pos + cp.len) (cont ++
      (((alistLookup files cp.file_id).getD []).drop cp.kv_pos).take cp.len) hrest
    refine ⟨rs, ?_, by rw [hrs, hids]⟩
    unfold KvsEngine.compactLoop
    rw [hr]
    dsimp only
    rw [hloop]
    simp [compactRewrite, spansOf]

theorem compactRewrite_lookup_none (cid : Nat) :
    ∀ (entries : List (String × CmdPos)) (pos : Nat) (k : String),
    alistLookup entries k = none → alistLookup (compactRewrite cid entries pos) k = none := by
  intro entries
  induction entries with
  | nil => intro pos k _; simp [compactRewrite, alistLookup]
  | cons p rest ih =>
    intro pos k h
    obtain ⟨k0, cp0⟩ := p
    by_cases hk : k = k0
    · simp [alistLookup, hk] at h
    · simp only [alistLookup, if_neg hk] at h
      simp [compactRewrite, alistLookup, hk, ih _ _ h]

/-- `compact` never produces `.ok` while keeping a removed key, and never
changes `check_point`; a successful run leaves no cached reader id below
`compact_id`. -/
theorem compact_check_point_eq (s : EngineState) (r : Except EngErr Unit)
    (s' : EngineState) (hc : KvsEngine.compact s = (r, s')) :
    s'.check_point = s.check_point := by
  unfold KvsEngine.compact at hc
  dsimp only at hc
  split at hc
  · injection hc with h1 h2
    rw [← h2]
  · split at hc <;> (injection hc with h1 h2; rw [← h2])

theorem compactLoop_lookup_none (files : List (Nat × List Char)) (cid : Nat) :
    ∀ (entries : List (String × CmdPos)) (readers : List (Nat × Nat)) (pos : Nat)
      (cont : List Char) (kd : List (String × CmdPos)) (rs : List (Nat × Nat))
      (cont' : List Char) (k : String),
    KvsEngine.compactLoop files cid entries readers pos cont = .ok (kd, rs, cont') →
    alistLookup entries k = none → alistLookup kd k = none := by
  intro entries
  induction entries with
  | nil =>
    intro readers pos cont kd rs cont' k h hk
    simp only [KvsEngine.compactLoop, Except.ok.injEq, Prod.mk.injEq] at h
    rw [← h.1]
    simp [alistLookup]
  | cons p rest ih =>
    intro readers pos cont kd rs cont' k h hk
    obtain ⟨k0, cp0⟩ := p
    have hk0 : ¬ k = k0 := by
      intro hcontra
      simp [alistLookup, hcontra] at hk
    simp only [alistLookup, if_neg hk0] at hk
    unfold KvsEngine.compactLoop at h
    split at h
    · exact absurd h (by simp)
    · dsimp only at h
      split at h
      · exact absurd h (by simp)
      · rename_i out kd2 rs2 cont2 heq
        injection h with h1
        injection h1 with hkd hrest
        rw [← hkd]
        simp only [alistLookup, if_neg hk0]
        exact ih _ _ _ _ _ _ k heq hk

theorem compact_lookup_none {s s' : EngineState} {k : String}
    (hk : alistLookup s.key_dir k = none)
    (hc : KvsEngine.compact s = (.ok (), s')) :
    alistLookup s'.key_dir k = none := by
  unfold KvsEngine.compact at hc
  dsimp only at hc
  split at hc
  · injection hc with h1 h2
    exact absurd h1 (by simp)
  · rename_i out kd rs cont heq
    split at hc
    · injection hc with h1 h2
      rw [← h2]
      exact compactLoop_lookup_none _ _ _ _ _ _ _ _ _ k heq hk
    · injection hc with h1 h2
      exact absurd h1 (by simp)

/-! ### Claim theorems: get frame, remove semantics, uncompact accounting,
reader-cache miss, checkpoint publication -/

deriving instance DecidableEq for Except

/-- C10: `get` never mutates the keydir, the disk files, or the writer
state (`current_file_id`, `uncompact`, the active writer's position); and
when the key is absent from the keydir it returns `Ok(None)` at once with
the state — including the reader cache and its positions — fully
unchanged, performing no file I/O. -/
theorem C10_get_read_only (s : EngineState) (k : String) :
    ((KvsEngine.get s k).2.key_dir = s.key_dir ∧
     (KvsEngine.get s k).2.files = s.files ∧
     (KvsEngine.get s k).2.current_file_id = s.current_file_id ∧
     (KvsEngine.get s k).2.uncompact = s.uncompact ∧
     (KvsEngine.get s k).2.writer_pos = s.writer_pos) ∧
    (alistLookup s.key_dir k = none → KvsEngine.get s k = (.ok none, s)) := by
  constructor
  · unfold KvsEngine.get
    cases hk : alistLookup s.key_dir k with
    | none => exact ⟨rfl, rfl, rfl, rfl, rfl⟩
    | some cp =>
      unfold KvsEngine.read
      dsimp only
      cases alistLookup (KvsEngine.check_point_evict s.check_point s.readers) cp.file_id with
      | none => exact ⟨rfl, rfl, rfl, rfl, rfl⟩
      | some rpos =>
        dsimp only
        cases hdec : decodeOne ((((alistLookup s.files cp.file_id).getD []).drop
            cp.kv_pos).take cp.len) with
        | none => exact ⟨rfl, rfl, rfl, rfl, rfl⟩
        | some c => cases c <;> exact ⟨rfl, rfl, rfl, rfl, rfl⟩
  · intro hk
    unfold KvsEngine.get
    rw [hk]

/-- C10 witness: at a concrete one-file store and an absent key. -/
theorem C10_get_read_only_witness :
    KvsEngine.get ⟨[(1, [])], [], [(1, 0)], 1, 0, 0, 0⟩ "q" =
      (.ok none, ⟨[(1, [])], [], [(1, 0)], 1, 0, 0, 0⟩) :=
  (C10_get_read_only ⟨[(1, [])], [], [(1, 0)], 1, 0, 0, 0⟩ "q").2 rfl

/-- C7: removing a key absent from the keydir fails with `KeyNotFound` and
leaves the store unchanged; after a successful `remove(k)`, `get(k)`
returns `Ok(None)` (without touching the state) and a second `remove(k)`
fails with `KeyNotFound`. -/
theorem C7_remove_semantics (s s' : EngineState) (k : String) :
    (alistLookup s.key_dir k = none →
      KvsEngine.remove s k = (.error .keyNotFound, s)) ∧
    (KvsEngine.remove s k = (.ok (), s') →
      KvsEngine.get s' k = (.ok none, s') ∧
      (KvsEngine.remove s' k).1 = .error .keyNotFound) := by
  constructor
  · intro hk
    unfold KvsEngine.remove
    rw [hk]
    rfl
  · intro hrem
    have habsent : alistLookup s'.key_dir k = none := by
      unfold KvsEngine.remove at hrem
      split at hrem
      · rename_i hsome
        dsimp only at hrem
        rw [alistRemove_snd] at hrem
        cases hl : alistLookup s.key_dir k with
        | none => rw [hl] at hsome; simp at hsome
        | some old =>
          rw [hl] at hrem
          dsimp only at hrem
          split at hrem
          · exact compact_lookup_none (by simp [alistLookup_remove_self]) hrem
          · injection hrem with h1 h2
            rw [← h2]
            exact alistLookup_remove_self _ _
      · injection hrem with h1 h2
        exact absurd h1 (by simp)
    constructor
    · unfold KvsEngine.get
      rw [habsent]
    · unfold KvsEngine.remove
      rw [habsent]
      rfl

/-- C7 witness: the concrete one-record store; remove of an absent key,
then a successful remove followed by get `None` and a failing remove. -/
theorem C7_remove_semantics_witness :
    (KvsEngine.remove ⟨[(1, [])], [], [(1, 0)], 1, 0, 0, 0⟩ "a" =
      (.error .keyNotFound, ⟨[(1, [])], [], [(1, 0)], 1, 0, 0, 0⟩)) ∧
    (KvsEngine.get (KvsEngine.remove (KvsEngine.set
        ⟨[(1, [])], [], [(1, 0)], 1, 0, 0, 0⟩ "a" "1").2 "a").2 "a").1 = .ok none := by
  constructor
  · exact (C7_remove_semantics ⟨[(1, [])], [], [(1, 0)], 1, 0, 0, 0⟩
      ⟨[(1, [])], [], [(1, 0)], 1, 0, 0, 0⟩ "a").1 rfl
  · have h2 := (C7_remove_semantics
      (KvsEngine.set ⟨[(1, [])], [], [(1, 0)], 1, 0, 0, 0⟩ "a" "1").2
      (KvsEngine.remove (KvsEngine.set
        ⟨[(1, [])], [], [(1, 0)], 1, 0, 0, 0⟩ "a" "1").2 "a").2 "a").2 (by decide)
    rw [h2.1]

/-- C6 counterexample: on the store holding exactly one 31-byte Set record
for key `a` (so the displaced length is `d = 31`), a successful
`remove("a")` raises `uncompact` by `31 = d` alone, not by
`d + L = 31 + 22` where `L = 22` is the encoded length of the appended
Remove record. -/
theorem C6_counterexample :
    let s : EngineState :=
      ⟨[(1, encodeCmd (.set "a" "1"))], [("a", ⟨1, 0, 31⟩)], [(1, 0)], 1, 0, 31, 0⟩
    (KvsEngine.remove s "a").1 = .ok () ∧
    (KvsEngine.remove s "a").2.uncompact = 31 ∧
    (encodeCmd (.remove "a")).length = 22 ∧
    (31 : Nat) ≠ 31 + 22 := by decide

/-- C6 amended: a successful `remove(key)` of a present key below the
compaction threshold appends the encoded Remove record and increases
`uncompact` by exactly `d`, the length recorded in the displaced keydir
entry; the Remove record's own encoded length `L` is NOT added (the code
only counts it on replay, in `load_log`). -/
theorem C6_remove_uncompact (s : EngineState) (k : String) (cp : CmdPos)
    (hk : alistLookup s.key_dir k = some cp)
    (hth : s.uncompact + cp.len < COMPACT_THRESHOLD) :
    KvsEngine.remove s k = (.ok (), { s with
      files := KvsEngine.appendToFile s.files s.current_file_id (encodeCmd (.remove k)),
      key_dir := (alistRemove s.key_dir k).1,
      uncompact := s.uncompact + cp.len,
      writer_pos := s.writer_pos + (encodeCmd (.remove k)).length }) := by
  unfold KvsEngine.remove
  rw [hk]
  dsimp only
  rw [alistRemove_snd, hk]
  dsimp only
  rw [if_neg (by omega : ¬ COMPACT_THRESHOLD ≤ s.uncompact + cp.len)]
  rfl

/-- C6 witness for the amended statement, at a concrete one-key store. -/
theorem C6_remove_uncompact_witness :
    KvsEngine.remove
      ⟨[(1, encodeCmd (.set "b" "2"))], [("b", ⟨1, 0, 31⟩)], [(1, 0)], 1, 5, 31, 0⟩ "b" =
    (.ok (), ⟨KvsEngine.appendToFile [(1, encodeCmd (.set "b" "2"))] 1
        (encodeCmd (.remove "b")),
      (alistRemove [("b", (⟨1, 0, 31⟩ : CmdPos))] "b").1, [(1, 0)], 1, 5 + 31,
      31 + (encodeCmd (.remove "b")).length, 0⟩) :=
  C6_remove_uncompact _ "b" ⟨1, 0, 31⟩ (by decide) (by decide)

/-- C4 (divergence from the claim): when the keydir entry for `key` points
at a `file_id` with no cached reader (after the checkpoint sweep), `get`
does not open `<file_id>.log` and cache a reader — the empty `if` branch
falls through to `.expect(...)`, a panic. -/
theorem C4_get_cache_miss_panics (s : EngineState) (k : String) (cp : CmdPos)
    (hk : alistLookup s.key_dir k = some cp)
    (hmiss : alistLookup (KvsEngine.check_point_evict s.check_point s.readers)
      cp.file_id = none) :
    KvsEngine.get s k =
      (.error .panicReaderMissing,
        { s with readers := KvsEngine.check_point_evict s.check_point s.readers }) := by
  unfold KvsEngine.get
  rw [hk]
  unfold KvsEngine.read
  dsimp only
  rw [hmiss]

/-- C4 witness: a store whose keydir points at file 2 while the reader
cache is empty (exactly the post-compaction situation). -/
theorem C4_get_cache_miss_panics_witness :
    KvsEngine.get
      ⟨[(2, encodeCmd (.set "a" "1"))], [("a", ⟨2, 0, 31⟩)], [], 3, 0, 0, 0⟩ "a" =
    (.error .panicReaderMissing,
      ⟨[(2, encodeCmd (.set "a" "1"))], [("a", ⟨2, 0, 31⟩)], [], 3, 0, 0, 0⟩) :=
  C4_get_cache_miss_panics _ "a" ⟨2, 0, 31⟩ (by decide) (by decide)

/-- C3 (divergence from the claim): compaction never writes the shared
`check_point` — the publication step is missing from the code (a dangling
`// self.reader.` comment) — though a successful run does directly remove
every cached id below `compact_id` from the shared cache. -/
theorem C3_compact_publishes_no_checkpoint (s s' : EngineState)
    (r : Except EngErr Unit) (hc : KvsEngine.compact s = (r, s')) :
    s'.check_point = s.check_point ∧
    (r = .ok () → ∀ p ∈ s'.readers, ¬ p.1 < s.current_file_id + 1) := by
  refine ⟨compact_check_point_eq s r s' hc, ?_⟩
  intro hr p hp
  subst hr
  unfold KvsEngine.compact at hc
  dsimp only at hc
  split at hc
  · injection hc with h1 h2
    exact absurd h1 (by simp)
  · split at hc
    · injection hc with h1 h2
      rw [← h2] at hp
      dsimp only at hp
      have := List.of_mem_filter hp
      simpa using this
    · injection hc with h1 h2
      exact absurd h1 (by simp)

/-- C3 witness: a concrete successful compaction leaves `check_point` at
its old value (0), not at `compact_id`. -/
theorem C3_compact_publishes_no_checkpoint_witness :
    (KvsEngine.compact ⟨[(1, encodeCmd (.set "a" "1"))], [("a", ⟨1, 0, 31⟩)],
        [(1, 0)], 1, 31, 31, 0⟩).2.check_point =
      (⟨[(1, encodeCmd (.set "a" "1"))], [("a", ⟨1, 0, 31⟩)],
        [(1, 0)], 1, 31, 31, 0⟩ : EngineState).check_point :=
  (C3_compact_publishes_no_checkpoint
    ⟨[(1, encodeCmd (.set "a" "1"))], [("a", ⟨1, 0, 31⟩)], [(1, 0)], 1, 31, 31, 0⟩
    (KvsEngine.compact ⟨[(1, encodeCmd (.set "a" "1"))], [("a", ⟨1, 0, 31⟩)],
      [(1, 0)], 1, 31, 31, 0⟩).2
    (KvsEngine.compact ⟨[(1, encodeCmd (.set "a" "1"))], [("a", ⟨1, 0, 31⟩)],
      [(1, 0)], 1, 31, 31, 0⟩).1
    rfl).1

theorem compactLoop_ids (files : List (Nat × List Char)) (cid : Nat) :
    ∀ (entries : List (String × CmdPos)) (readers : List (Nat × Nat)) (pos : Nat)
      (cont : List Char) (kd : List (String × CmdPos)) (rs : List (Nat × Nat))
      (cont' : List Char),
    KvsEngine.compactLoop files cid entries readers pos cont = .ok (kd, rs, cont') →
    rs.map Prod.fst = readers.map Prod.fst := by
  intro entries
  induction entries with
  | nil =>
    intro readers pos cont kd rs cont' h
    simp only [KvsEngine.compactLoop, Except.ok.injEq, Prod.mk.injEq] at h
    rw [← h.2.1]
  | cons p rest ih =>
    intro readers pos cont kd rs cont' h
    obtain ⟨k0, cp0⟩ := p
    unfold KvsEngine.compactLoop at h
    cases hr : alistLookup readers cp0.file_id with
    | none => rw [hr] at h; exact absurd h (by simp)
    | some rp =>
      rw [hr] at h
      dsimp only at h
      split at h
      · exact absurd h (by simp)
      · rename_i out kd2 rs2 cont2 heq
        injection h with h1
        injection h1 with hkd h2
        injection h2 with hrs hcont
        rw [← hrs]
        rw [ih _ _ _ _ _ _ heq]
        exact alistInsert_map_fst_of_isSome _ _ _ (by rw [hr]; rfl)

/-- C1 (divergence from the claim): immediately after any successful
compaction run from a state whose cached reader ids do not exceed
`current_file_id` (true of every state the engine reaches before its first
compaction), the shared reader cache is empty, so `get` on EVERY key still
present in the keydir returns the reader-cache `expect` panic instead of
the last written value. -/
theorem C1_get_panics_after_compaction (s s' : EngineState)
    (hids : ∀ p ∈ s.readers, p.1 ≤ s.current_file_id)
    (hc : KvsEngine.compact s = (.ok (), s'))
    (k : String) (hk : (alistLookup s'.key_dir k).isSome) :
    (KvsEngine.get s' k).1 = .error .panicReaderMissing := by
  have hreaders : s'.readers = [] := by
    unfold KvsEngine.compact at hc
    dsimp only at hc
    split at hc
    · injection hc with h1 h2
      exact absurd h1 (by simp)
    · rename_i out kd rs cont heq
      split at hc
      · injection hc with h1 h2
        rw [← h2]
        dsimp only
        rw [List.filter_eq_nil_iff]
        intro p hp
        have hpid : p.1 ∈ s.readers.map Prod.fst := by
          rw [← compactLoop_ids _ _ _ _ _ _ _ _ _ heq]
          exact List.mem_map_of_mem Prod.fst hp
        obtain ⟨q, hq, hq1⟩ := List.mem_map.mp hpid
        have := hids q hq
        simp only [decide_eq_true_eq, Decidable.not_not]
        omega
      · injection hc with h1 h2
        exact absurd h1 (by simp)
  obtain ⟨cp, hcp⟩ := Option.isSome_iff_exists.mp hk
  unfold KvsEngine.get
  rw [hcp]
  unfold KvsEngine.read
  rw [hreaders]
  rfl

/-- C1 witness: a concrete store with one live key; compaction succeeds
and the following get of that key panics. -/
theorem C1_get_panics_after_compaction_witness :
    (KvsEngine.get (KvsEngine.compact ⟨[(1, encodeCmd (.set "a" "1"))],
        [("a", ⟨1, 0, 31⟩)], [(1, 0)], 1, 31, 31, 0⟩).2 "a").1 =
      .error .panicReaderMissing :=
  C1_get_panics_after_compaction
    ⟨[(1, encodeCmd (.set "a" "1"))], [("a", ⟨1, 0, 31⟩)], [(1, 0)], 1, 31, 31, 0⟩
    (KvsEngine.compact ⟨[(1, encodeCmd (.set "a" "1"))],
      [("a", ⟨1, 0, 31⟩)], [(1, 0)], 1, 31, 31, 0⟩).2
    (by decide) (by decide) "a" (by decide)

/-!
Part 3: the network server loop, a shallow embedding of
src/courses/rust/projects/project-3-impl/src/server.rs.

A connection's input is the item stream of the `Deserializer::into_iter::
<Request>` on its socket: a list of decoded requests and decode errors
(`Err` items), ended by EOF.  The engine behind the server is abstracted
as a pure state machine whose operations either succeed or yield an error
message (the `format!("\x7b\x7d", e)` string). -/

/-- Wire request frames, mirroring Rust `enum Request`. -/
inductive Request where
  | get (key : String)
  | set (key value : String)
  | remove (key : String)
deriving DecidableEq, Repr

/-- Wire response frames: `GetResp`, `SetResp` and `RemoveResp`, each
`Ok(..)` or `Err(msg)`. -/
inductive RespFrame where
  | getOk (value : Option String)
  | getErr (msg : String)
  | setOk
  | setErr (msg : String)
  | removeOk
  | removeErr (msg : String)
deriving DecidableEq, Repr

/-- The engine the server dispatches to, abstracted as a pure state
machine over a state type `σ`; errors are already rendered to message
strings. -/
structure EngineOps (σ : Type) where
  getOp : σ → String → σ × Except String (Option String)
  setOp : σ → String → String → σ × Except String Unit
  removeOp : σ → String → σ × Except String Unit

namespace Server

/-- Dispatch one decoded request to the engine and build the response
frame that `handle_client` serializes and flushes: engine `Ok` becomes the
`Ok` response, engine `Err(e)` becomes the `Err(msg)` response. -/
def dispatch {σ : Type} (E : EngineOps σ) (s : σ) : Request → σ × RespFrame
  | .get k =>
    match E.getOp s k with
    | (s', .ok v) => (s', .getOk v)
    | (s', .error m) => (s', .getErr m)
  | .set k v =>
    match E.setOp s k v with
    | (s', .ok _) => (s', .setOk)
    | (s', .error m) => (s', .setErr m)
  | .remove k =>
    match E.removeOp s k with
    | (s', .ok _) => (s', .removeOk)
    | (s', .error m) => (s', .removeErr m)

/-- `Server::handle_client`: iterate the request stream; each successfully
decoded request is dispatched and answered with one flushed response
frame, in order; the first decode error (`req?`) aborts the connection
with an error after the responses already sent.  Returns the final engine
state, the responses written, and whether the connection ended in error. -/
def handleClient {σ : Type} (E : EngineOps σ) :
    σ → List (Except String Request) → σ × List RespFrame × Bool
  | s, [] => (s, [], false)
  | s, .error _ :: _ => (s, [], true)
  | s, .ok req :: rest =>
    let d := dispatch E s req
    let out := handleClient E d.1 rest
    (out.1, d.2 :: out.2.1, out.2.2)

/-- `Server::run`: accept connections one at a time; a connection that
ends in a decode error is only logged — the loop continues with the next
connection. -/
def run {σ : Type} (E : EngineOps σ) :
    σ → List (List (Except String Request)) → σ × List (List RespFrame)
  | s, [] => (s, [])
  | s, conn :: rest =>
    let out := handleClient E s conn
    let next := run E out.1 rest
    (next.1, out.2.1 :: next.2)

/-- The reference behavior the spec describes for a connection: one
response per request, in request order, threading the engine state. -/
def processReqs {σ : Type} (E : EngineOps σ) : σ → List Request → σ × List RespFrame
  | s, [] => (s, [])
  | s, req :: rest =>
    let d := dispatch E s req
    let out := processReqs E d.1 rest
    (out.1, d.2 :: out.2)

end Server

theorem handleClient_oks {σ : Type} (E : EngineOps σ) :
    ∀ (oks : List Request) (s : σ),
    Server.handleClient E s (oks.map .ok) =
      ((Server.processReqs E s oks).1, (Server.processReqs E s oks).2, false) := by
  intro oks
  induction oks with
  | nil => intro s; rfl
  | cons req rest ih =>
    intro s
    simp only [List.map_cons, Server.handleClient, Server.processReqs, ih]

theorem handleClient_decode_error {σ : Type} (E : EngineOps σ) (e : String)
    (tail : List (Except String Request)) :
    ∀ (oks : List Request) (s : σ),
    Server.handleClient E s (oks.map .ok ++ .error e :: tail) =
      ((Server.processReqs E s oks).1, (Server.processReqs E s oks).2, true) := by
  intro oks
  induction oks with
  | nil => intro s; rfl
  | cons req rest ih =>
    intro s
    simp only [List.map_cons, List.cons_append, Server.handleClient, Server.processReqs,
      List.append_eq, ih]

theorem processReqs_length {σ : Type} (E : EngineOps σ) :
    ∀ (oks : List Request) (s : σ),
    (Server.processReqs E s oks).2.length = oks.length := by
  intro oks
  induction oks with
  | nil => intro s; rfl
  | cons req rest ih => intro s; simp [Server.processReqs, ih]

theorem run_length {σ : Type} (E : EngineOps σ) :
    ∀ (conns : List (List (Except String Request))) (s : σ),
    (Server.run E s conns).2.length = conns.length := by
  intro conns
  induction conns with
  | nil => intro s; rfl
  | cons conn rest ih => intro s; simp [Server.run, ih]

/-- C9: in the server loop, a successfully decoded request whose engine
dispatch fails is answered with the `Err(msg)` response frame and the
connection continues to the next request (the handled prefix equals the
reference one-response-per-request processing, in order, regardless of
engine errors); the first request-frame decode failure terminates that
connection (requests after it are not processed), while `run` goes on to
handle every remaining connection. -/
theorem C9_server_loop {σ : Type} (E : EngineOps σ) (s : σ)
    (oks : List Request) (e : String) (tail : List (Except String Request))
    (conn : List (Except String Request)) (conns : List (List (Except String Request))) :
    (∀ (t : σ) (k m), (E.getOp t k).2 = .error m →
      (Server.dispatch E t (.get k)).2 = .getErr m) ∧
    (∀ (t : σ) (k v m), (E.setOp t k v).2 = .error m →
      (Server.dispatch E t (.set k v)).2 = .setErr m) ∧
    (∀ (t : σ) (k m), (E.removeOp t k).2 = .error m →
      (Server.dispatch E t (.remove k)).2 = .removeErr m) ∧
    Server.handleClient E s (oks.map .ok) =
      ((Server.processReqs E s oks).1, (Server.processReqs E s oks).2, false) ∧
    (Server.processReqs E s oks).2.length = oks.length ∧
    Server.handleClient E s (oks.map .ok ++ .error e :: tail) =
      ((Server.processReqs E s oks).1, (Server.processReqs E s oks).2, true) ∧
    Server.run E s (conn :: conns) =
      ((Server.run E (Server.handleClient E s conn).1 conns).1,
        (Server.handleClient E s conn).2.1 ::
          (Server.run E (Server.handleClient E s conn).1 conns).2) ∧
    (Server.run E s conns).2.length = conns.length := by
  refine ⟨?_, ?_, ?_, handleClient_oks E oks s, processReqs_length E oks s,
    handleClient_decode_error E e tail oks s, rfl, run_length E conns s⟩
  · intro t k m h
    cases hE : E.getOp t k with
    | mk t' r =>
      rw [hE] at h
      dsimp only at h
      subst h
      simp [Server.dispatch, hE]
  · intro t k v m h
    cases hE : E.setOp t k v with
    | mk t' r =>
      rw [hE] at h
      dsimp only at h
      subst h
      simp [Server.dispatch, hE]
  · intro t k m h
    cases hE : E.removeOp t k with
    | mk t' r =>
      rw [hE] at h
      dsimp only at h
      subst h
      simp [Server.dispatch, hE]

/-- C9 witness: a two-element engine over `Nat` states whose gets fail
with a message; a connection with one ok request, a decode error, and a
trailing frame; one extra connection after the failing one. -/
theorem C9_server_loop_witness :
    let E : EngineOps Nat :=
      ⟨fun n k => (n + 1, .error (String.append "boom " k)),
       fun n _ _ => (n + 1, .ok ()),
       fun n _ => (n + 1, .ok ())⟩
    (Server.dispatch E 0 (.get "a")).2 = .getErr (String.append "boom " "a") ∧
    Server.handleClient E 0 ([Request.set "x" "1"].map .ok ++ .error "bad" :: [.ok (.get "z")]) =
      ((Server.processReqs E 0 [Request.set "x" "1"]).1,
        (Server.processReqs E 0 [Request.set "x" "1"]).2, true) ∧
    (Server.run E 0 [[.ok (.get "a")], [.error "bad"], [.ok (.set "p" "q")]]).2.length = 3 := by
  refine ⟨?_, ?_, ?_⟩
  · exact (C9_server_loop _ 0 [] "bad" [] [] []).1 0 "a" (String.append "boom " "a") rfl
  · exact (C9_server_loop _ 0 [Request.set "x" "1"] "bad" [.ok (.get "z")] [] []).2.2.2.2.2.1
  · exact (C9_server_loop _ 0 [] "bad" [] []
      [[.ok (.get "a")], [.error "bad"], [.ok (.set "p" "q")]]).2.2.2.2.2.2.2

/-! ### Compaction correctness (C5) -/

/-- The raw bytes a keydir entry points at. -/
def spanBytes (files : List (Nat × List Char)) (cp : CmdPos) : List Char :=
  (((alistLookup files cp.file_id).getD []).drop cp.kv_pos).take cp.len

section MoreAlist

variable {κ α : Type} [DecidableEq κ]

theorem alistLookup_some_mem {l : List (κ × α)} {k : κ} {v : α}
    (h : alistLookup l k = some v) : (k, v) ∈ l := by
  induction l with
  | nil => simp [alistLookup] at h
  | cons p t ih =>
    obtain ⟨k0, v0⟩ := p
    by_cases hk : k = k0
    · simp only [alistLookup, if_pos hk] at h
      injection h with h
      simp [hk, ← h]
    · simp only [alistLookup, if_neg hk] at h
      simp [ih h]

theorem alistInsert_mem_fst {l : List (κ × α)} {k k' : κ} {v : α}
    (h : k' ∈ (alistInsert l k v).1.map Prod.fst) :
    k' ∈ l.map Prod.fst ∨ k' = k := by
  induction l with
  | nil => simp [alistInsert] at h; simp [h]
  | cons p t ih =>
    obtain ⟨k0, v0⟩ := p
    by_cases hk : k = k0
    · simp only [alistInsert, if_pos hk, List.map_cons, List.mem_cons] at h
      rcases h with h | h
      · exact Or.inr h
      · exact Or.inl (by simp [h])
    · simp only [alistInsert, if_neg hk, List.map_cons, List.mem_cons] at h
      rcases h with h | h
      · exact Or.inl (by simp [h])
      · rcases ih h with h2 | h2
        · exact Or.inl (by simp [h2])
        · exact Or.inr h2

theorem alistLookup_filter_key (C : κ → Prop) [DecidablePred C] (l : List (κ × α)) (k : κ)
    (hC : C k) :
    alistLookup (l.filter fun p => decide (C p.1)) k = alistLookup l k := by
  induction l with
  | nil => simp [alistLookup]
  | cons p t ih =>
    obtain ⟨k0, v0⟩ := p
    by_cases hk : k = k0
    · subst hk
      simp [List.filter, alistLookup, hC, ih]
    · by_cases hC0 : C k0
      · simp [List.filter, hC0, alistLookup, hk, ih]
      · simp [List.filter, hC0, alistLookup, hk, ih]

end MoreAlist

theorem new_log_file_lookup_ne (files : List (Nat × List Char)) {fid nfid : Nat}
    (h : ¬ fid = nfid) :
    alistLookup (KvsEngine.new_log_file files nfid) fid = alistLookup files fid := by
  unfold KvsEngine.new_log_file
  cases alistLookup files nfid with
  | some c => rfl
  | none => exact alistLookup_insert_ne _ _ h

theorem new_log_file_mem_fst {files : List (Nat × List Char)} {fid nfid : Nat}
    (h : fid ∈ (KvsEngine.new_log_file files nfid).map Prod.fst) :
    fid ∈ files.map Prod.fst ∨ fid = nfid := by
  unfold KvsEngine.new_log_file at h
  cases hl : alistLookup files nfid with
  | some c => rw [hl] at h; exact Or.inl h
  | none => rw [hl] at h; exact alistInsert_mem_fst h

theorem spansOf_congr {files files' : List (Nat × List Char)} :
    ∀ {entries : List (String × CmdPos)},
    (∀ p ∈ entries, alistLookup files p.2.file_id = alistLookup files' p.2.file_id) →
    spansOf files entries = spansOf files' entries := by
  intro entries
  induction entries with
  | nil => intro _; rfl
  | cons p rest ih =>
    intro h
    obtain ⟨k0, cp0⟩ := p
    simp only [spansOf]
    rw [h (k0, cp0) (by simp), ih fun q hq => h q (by simp [hq])]

theorem compactRewrite_lookup_isSome (cid : Nat) :
    ∀ (entries : List (String × CmdPos)) (pos : Nat) (k : String),
    (alistLookup (compactRewrite cid entries pos) k).isSome =
      (alistLookup entries k).isSome := by
  intro entries
  induction entries with
  | nil => intro pos k; rfl
  | cons p rest ih =>
    intro pos k
    obtain ⟨k0, cp0⟩ := p
    by_cases hk : k = k0
    · simp [compactRewrite, alistLookup, hk]
    · simp [compactRewrite, alistLookup, hk, ih]

theorem compactRewrite_extract (files : List (Nat × List Char)) (cid : Nat) :
    ∀ (entries : List (String × CmdPos)) (pos : Nat) (k : String) (cp : CmdPos),
    (∀ p ∈ entries, (spanBytes files p.2).length = p.2.len) →
    alistLookup entries k = some cp →
    ∃ cp', alistLookup (compactRewrite cid entries pos) k = some cp' ∧
      cp'.file_id = cid ∧ cp'.len = cp.len ∧ pos ≤ cp'.kv_pos ∧
      ((spansOf files entries).drop (cp'.kv_pos - pos)).take cp'.len =
        spanBytes files cp := by
  intro entries
  induction entries with
  | nil => intro pos k cp _ h; simp [alistLookup] at h
  | cons p rest ih =>
    intro pos k cp hlen h
    obtain ⟨k0, cp0⟩ := p
    by_cases hk : k = k0
    · simp only [alistLookup, if_pos hk] at h
      injection h with h
      subst h
      refine ⟨⟨cid, pos, cp0.len⟩, by simp [compactRewrite, alistLookup, hk], rfl, rfl,
        le_refl _, ?_⟩
      have hl := hlen (k0, cp0) (by simp)
      simp only at hl
      rw [show spansOf files ((k0, cp0) :: rest) = spanBytes files cp0 ++ spansOf files rest
        from rfl, Nat.sub_self, List.drop_zero]
      exact List.take_left' hl
    · simp only [alistLookup, if_neg hk] at h
      obtain ⟨cp', hcp', hfid, hlen', hpos, hspan⟩ :=
        ih (pos + cp0.len) k cp (fun q hq => hlen q (by simp [hq])) h
      refine ⟨cp', by simp [compactRewrite, alistLookup, hk, hcp'], hfid, hlen', by omega, ?_⟩
      have hl0 := hlen (k0, cp0) (by simp)
      simp only at hl0
      rw [show spansOf files ((k0, cp0) :: rest) = spanBytes files cp0 ++ spansOf files rest
        from rfl]
      have harith : cp'.kv_pos - pos = (spanBytes files cp0).length +
          (cp'.kv_pos - (pos + cp0.len)) := by
        rw [hl0]
        omega
      rw [harith, List.drop_append, hspan]

/-- C5: for a successful compaction run from a state satisfying the code's
own expectations (every keydir entry has a cached reader; entries point at
in-range spans of files no newer than the active one; every disk file is
reader-cached and no newer than the active one — all true of every state
the engine reaches before its first compaction, and maintained throughout
in the project-3 variant, whose `new_log_file` registers readers):
the keydir is rewritten entry by entry to `(compact_id, compact_pos, len)`
with `compact_pos` the running sum of previously copied lengths; every key
keeps an entry whose span holds byte-identical (hence identically decoding)
data; and no file or cached reader with id below `compact_id` survives, so
no pre-compaction record is reachable through the keydir. -/
theorem C5_compaction_invariants (s s' : EngineState)
    (hreach : ∀ p ∈ s.key_dir, (alistLookup s.readers p.2.file_id).isSome)
    (hkd : ∀ p ∈ s.key_dir, p.2.file_id ≤ s.current_file_id ∧
      (spanBytes s.files p.2).length = p.2.len)
    (hfiles : ∀ p ∈ s.files, (alistLookup s.readers p.1).isSome ∧
      p.1 ≤ s.current_file_id)
    (hc : KvsEngine.compact s = (.ok (), s')) :
    s'.key_dir = compactRewrite (s.current_file_id + 1) s.key_dir 0 ∧
    (∀ k, (alistLookup s'.key_dir k).isSome ↔ (alistLookup s.key_dir k).isSome) ∧
    (∀ k cp, alistLookup s.key_dir k = some cp →
      ∃ cp', alistLookup s'.key_dir k = some cp' ∧
        cp'.file_id = s.current_file_id + 1 ∧ cp'.len = cp.len ∧
        spanBytes s'.files cp' = spanBytes s.files cp) ∧
    (∀ p ∈ s'.files, ¬ p.1 < s.current_file_id + 1) ∧
    (∀ p ∈ s'.readers, ¬ p.1 < s.current_file_id + 1) := by
  set F2 := KvsEngine.new_log_file (KvsEngine.new_log_file s.files
    (s.current_file_id + 2)) (s.current_file_id + 1) with hF2
  have hfile2lookup : ∀ fid, fid ≤ s.current_file_id →
      alistLookup F2 fid = alistLookup s.files fid := by
    intro fid hfid
    rw [hF2, new_log_file_lookup_ne _ (by omega), new_log_file_lookup_ne _ (by omega)]
  have hspan2 : ∀ (cp : CmdPos), cp.file_id ≤ s.current_file_id →
      spanBytes F2 cp = spanBytes s.files cp := by
    intro cp hfid
    unfold spanBytes
    rw [hfile2lookup _ hfid]
  obtain ⟨rs, hloop, hrsids⟩ := compactLoop_ok F2 (s.current_file_id + 1)
    s.key_dir s.readers 0 [] hreach
  unfold KvsEngine.compact at hc
  dsimp only at hc
  rw [← hF2, hloop] at hc
  dsimp only at hc
  set CONT := ([] : List Char) ++ spansOf F2 s.key_dir with hCONT
  set RM := (rs.map Prod.fst).filter (fun fid => decide (fid < s.current_file_id + 1))
    with hRM
  set F3 := (alistInsert F2 (s.current_file_id + 1) CONT).1 with hF3
  have hcidnotrm : ¬ (s.current_file_id + 1) ∈ RM := by
    intro hmem
    rw [hRM] at hmem
    have := List.of_mem_filter hmem
    simp at this
  split at hc
  · rename_i hall
    injection hc with h1 h2
    subst h2
    dsimp only
    refine ⟨rfl, ?_, ?_, ?_, ?_⟩
    · intro k
      rw [compactRewrite_lookup_isSome]
    · intro k cp hk
      have hmem := alistLookup_some_mem hk
      obtain ⟨cp', hcp', hfid, hlen', hge, hspan⟩ := compactRewrite_extract F2
        (s.current_file_id + 1) s.key_dir 0 k cp
        (fun p hp => by rw [hspan2 p.2 (hkd p hp).1]; exact (hkd p hp).2) hk
      simp only [Nat.sub_zero] at hspan
      refine ⟨cp', hcp', hfid, hlen', ?_⟩
      have hlf : alistLookup (F3.filter fun p => decide (¬ p.1 ∈ RM)) cp'.file_id =
          some CONT := by
        rw [hfid]
        rw [alistLookup_filter_key (fun fid => ¬ fid ∈ RM) _ _ hcidnotrm]
        rw [hF3]
        exact alistLookup_insert_self _ _ _
      calc spanBytes (F3.filter fun p => decide (¬ p.1 ∈ RM)) cp'
          = (CONT.drop cp'.kv_pos).take cp'.len := by
            unfold spanBytes
            rw [hlf]
            rfl
        _ = spanBytes F2 cp := by rw [hCONT, List.nil_append]; exact hspan
        _ = spanBytes s.files cp := hspan2 cp (hkd (k, cp) hmem).1
    · intro p hp
      have hmemf := List.mem_filter.mp hp
      have hnotrm : ¬ p.1 ∈ RM := by
        have := hmemf.2
        simpa using this
      intro hlt
      apply hnotrm
      have hp3 : p.1 ∈ F3.map Prod.fst := List.mem_map_of_mem Prod.fst hmemf.1
      rw [hF3] at hp3
      rcases alistInsert_mem_fst hp3 with hin | heq
      · rw [hF2] at hin
        rcases new_log_file_mem_fst hin with hin2 | heq2
        · rcases new_log_file_mem_fst hin2 with hin3 | heq3
          · obtain ⟨q, hq, hq1⟩ := List.mem_map.mp hin3
            have hrd := (hfiles q hq).1
            rw [alistLookup_isSome_iff_mem_fst] at hrd
            rw [hRM]
            refine List.mem_filter.mpr ⟨?_, by simpa using hlt⟩
            rw [hrsids, ← hq1]
            exact hrd
          · omega
        · omega
      · omega
    · intro p hp
      have := List.of_mem_filter hp
      simpa using this
  · injection hc with h1 h2
    exact absurd h1 (by simp)

/-- C5 witness: compaction of a concrete two-key store rewrites the keydir
to the compact file with running offsets. -/
theorem C5_compaction_invariants_witness :
    (KvsEngine.compact ⟨[(1, encodeAll [.set "a" "1", .set "b" "2"])],
        [("a", ⟨1, 0, 31⟩), ("b", ⟨1, 31, 31⟩)], [(1, 0)], 1, 0, 62, 0⟩).2.key_dir =
      compactRewrite 2 [("a", ⟨1, 0, 31⟩), ("b", ⟨1, 31, 31⟩)] 0 :=
  (C5_compaction_invariants
    ⟨[(1, encodeAll [.set "a" "1", .set "b" "2"])],
      [("a", ⟨1, 0, 31⟩), ("b", ⟨1, 31, 31⟩)], [(1, 0)], 1, 0, 62, 0⟩
    (KvsEngine.compact ⟨[(1, encodeAll [.set "a" "1", .set "b" "2"])],
      [("a", ⟨1, 0, 31⟩), ("b", ⟨1, 31, 31⟩)], [(1, 0)], 1, 0, 62, 0⟩).2
    (by decide) (by decide) (by decide) (by decide)).1

/-! ### Reopen / replay correctness (C2) -/

/-- The reference semantics of one replayed record on a plain key/value
map: last-writer-wins insert, `Remove` deletes. -/
def applyCmd (m : List (String × String)) : Cmd → List (String × String)
  | .set k v => (alistInsert m k v).1
  | .remove k => (alistRemove m k).1

/-- Replay of one log file's records over the reference map. -/
def replayFile (m : List (String × String)) (cmds : List Cmd) : List (String × String) :=
  cmds.foldl applyCmd m

/-- Replay of the whole history, files in ascending id order. -/
def replayHistory (hist : List (Nat × List Cmd)) : List (String × String) :=
  hist.foldl (fun m p => replayFile m p.2) []

/-- Correspondence between the rebuilt keydir and the reference map: the
key sets agree, and each keydir entry's span lies inside a loaded file
(`okId`) and holds exactly the encoding of the Set record for the
reference value. -/
def KdInv (files : List (Nat × List Char)) (okId : Nat → Prop)
    (kd : List (String × CmdPos)) (m : List (String × String)) : Prop :=
  (∀ k, (alistLookup kd k).isSome ↔ (alistLookup m k).isSome) ∧
  (∀ k cp, alistLookup kd k = some cp → okId cp.file_id ∧ ∃ v,
    alistLookup m k = some v ∧
    spanBytes files cp = encodeCmd (.set k v) ∧
    cp.kv_pos + cp.len ≤ ((alistLookup files cp.file_id).getD []).length)

theorem KdInv_nil (files : List (Nat × List Char)) (okId : Nat → Prop) :
    KdInv files okId [] [] := by
  constructor
  · intro k; simp [alistLookup]
  · intro k cp h; simp [alistLookup] at h

theorem KdInv_insert {files : List (Nat × List Char)} {okId : Nat → Prop}
    {kd : List (String × CmdPos)} {m : List (String × String)}
    (hinv : KdInv files okId kd m) (k v : String) (cp : CmdPos)
    (hok : okId cp.file_id)
    (hspan : spanBytes files cp = encodeCmd (.set k v))
    (hbound : cp.kv_pos + cp.len ≤ ((alistLookup files cp.file_id).getD []).length) :
    KdInv files okId (alistInsert kd k cp).1 (alistInsert m k v).1 := by
  obtain ⟨hiso, hval⟩ := hinv
  constructor
  · intro k'
    by_cases hk : k' = k
    · subst hk
      simp [alistLookup_insert_self]
    · rw [alistLookup_insert_ne _ _ hk, alistLookup_insert_ne _ _ hk]
      exact hiso k'
  · intro k' cp' h
    by_cases hk : k' = k
    · subst hk
      rw [alistLookup_insert_self] at h
      injection h with h
      subst h
      exact ⟨hok, v, alistLookup_insert_self _ _ _, hspan, hbound⟩
    · rw [alistLookup_insert_ne _ _ hk] at h
      obtain ⟨hok', v', hv', hspan', hbound'⟩ := hval k' cp' h
      exact ⟨hok', v', by rw [alistLookup_insert_ne _ _ hk]; exact hv', hspan', hbound'⟩

theorem KdInv_remove {files : List (Nat × List Char)} {okId : Nat → Prop}
    {kd : List (String × CmdPos)} {m : List (String × String)}
    (hinv : KdInv files okId kd m) (k : String) :
    KdInv files okId (alistRemove kd k).1 (alistRemove m k).1 := by
  obtain ⟨hiso, hval⟩ := hinv
  constructor
  · intro k'
    by_cases hk : k' = k
    · subst hk
      simp [alistLookup_remove_self]
    · rw [alistLookup_remove_ne _ hk, alistLookup_remove_ne _ hk]
      exact hiso k'
  · intro k' cp' h
    by_cases hk : k' = k
    · subst hk
      rw [alistLookup_remove_self] at h
      exact absurd h (by simp)
    · rw [alistLookup_remove_ne _ hk] at h
      obtain ⟨hok', v', hv', hspan', hbound'⟩ := hval k' cp' h
      exact ⟨hok', v', by rw [alistLookup_remove_ne _ hk]; exact hv', hspan', hbound'⟩

theorem KdInv_mono_files {files files' : List (Nat × List Char)} {okId : Nat → Prop}
    {kd : List (String × CmdPos)} {m : List (String × String)}
    (hsame : ∀ fid, okId fid → alistLookup files' fid = alistLookup files fid)
    (hinv : KdInv files okId kd m) : KdInv files' okId kd m := by
  obtain ⟨hiso, hval⟩ := hinv
  refine ⟨hiso, ?_⟩
  intro k cp h
  obtain ⟨hok, v, hv, hspan, hbound⟩ := hval k cp h
  refine ⟨hok, v, hv, ?_, ?_⟩
  · rw [show spanBytes files' cp =
      (((alistLookup files' cp.file_id).getD []).drop cp.kv_pos).take cp.len from rfl,
      hsame _ hok]
    exact hspan
  · rw [hsame _ hok]
    exact hbound

theorem load_log_nil (fid posi : Nat) (kd : List (String × CmdPos)) (unc : Nat) :
    KvsEngine.load_log fid [] posi kd unc = .ok (kd, unc) := by
  rw [KvsEngine.load_log.eq_def]
  simp

theorem load_log_step_set {content r : List Char} {k v : String}
    (hne : content ≠ []) (hp : parseCmd content = some (.set k v, r))
    (fid posi : Nat) (kd : List (String × CmdPos)) (unc : Nat) :
    KvsEngine.load_log fid content posi kd unc =
      KvsEngine.load_log fid r (posi + (content.length - r.length))
        (alistInsert kd k ⟨fid, posi, posi + (content.length - r.length) - posi⟩).1
        (unc + (match (alistInsert kd k
            ⟨fid, posi, posi + (content.length - r.length) - posi⟩).2 with
          | some old => old.len | none => 0)) := by
  rw [KvsEngine.load_log.eq_def, dif_neg hne]
  split
  · rename_i heq
    rw [hp] at heq
    exact absurd heq (by simp)
  · rename_i p heq
    rw [hp] at heq
    injection heq with heq
    subst heq
    rfl

theorem load_log_step_remove {content r : List Char} {k : String}
    (hne : content ≠ []) (hp : parseCmd content = some (.remove k, r))
    (fid posi : Nat) (kd : List (String × CmdPos)) (unc : Nat) :
    KvsEngine.load_log fid content posi kd unc =
      KvsEngine.load_log fid r (posi + (content.length - r.length))
        (alistRemove kd k).1
        (unc + (match (alistRemove kd k).2 with | some old => old.len | none => 0) +
          (posi + (content.length - r.length) - posi)) := by
  rw [KvsEngine.load_log.eq_def, dif_neg hne]
  split
  · rename_i heq
    rw [hp] at heq
    exact absurd heq (by simp)
  · rename_i p heq
    rw [hp] at heq
    injection heq with heq
    subst heq
    rfl

theorem load_log_replay (files : List (Nat × List Char)) (fid : Nat) (okId : Nat → Prop)
    (hok : okId fid) :
    ∀ (cmds : List Cmd) (done : List Char) (kd : List (String × CmdPos))
      (m : List (String × String)) (unc : Nat),
    alistLookup files fid = some (done ++ encodeAll cmds) →
    KdInv files okId kd m →
    ∃ kd' unc',
      KvsEngine.load_log fid (encodeAll cmds) done.length kd unc = .ok (kd', unc') ∧
      KdInv files okId kd' (replayFile m cmds) := by
  intro cmds
  induction cmds with
  | nil =>
    intro done kd m unc _ hinv
    exact ⟨kd, unc, load_log_nil _ _ _ _, hinv⟩
  | cons c rest ih =>
    intro done kd m unc hfile hinv
    have hshape : encodeAll (c :: rest) = encodeCmd c ++ encodeAll rest := rfl
    have hne : encodeAll (c :: rest) ≠ [] := by
      rw [hshape]
      intro h
      exact encodeCmd_ne_nil c (List.append_eq_nil.mp h).1
    have harith : done.length + ((encodeAll (c :: rest)).length -
        (encodeAll rest).length) = (done ++ encodeCmd c).length := by
      rw [hshape]
      simp
    have hlen3 : (done ++ encodeCmd c).length - done.length = (encodeCmd c).length := by
      simp
    have hfile2 : alistLookup files fid =
        some ((done ++ encodeCmd c) ++ encodeAll rest) := by
      rw [hfile, hshape, List.append_assoc]
    cases c with
    | set k v =>
      have hp : parseCmd (encodeAll (Cmd.set k v :: rest)) =
          some (.set k v, encodeAll rest) := by
        rw [hshape]
        exact parseCmd_encode _ (encodeAll rest)
      rw [load_log_step_set hne hp, harith, hlen3]
      have hspan : spanBytes files ⟨fid, done.length, (encodeCmd (Cmd.set k v)).length⟩ =
          encodeCmd (.set k v) := by
        unfold spanBytes
        dsimp only
        rw [hfile, hshape]
        rw [show (done ++ (encodeCmd (Cmd.set k v) ++ encodeAll rest) : List Char) =
          done ++ (encodeCmd (Cmd.set k v) ++ encodeAll rest) from rfl]
        show ((done ++ (encodeCmd (Cmd.set k v) ++ encodeAll rest)).drop
          done.length).take (encodeCmd (Cmd.set k v)).length = _
        rw [List.drop_left, List.take_left]
      have hbound : done.length + (encodeCmd (Cmd.set k v)).length ≤
          ((alistLookup files fid).getD []).length := by
        rw [hfile, hshape]
        simp
      obtain ⟨kd', unc', hrun, hinv'⟩ := ih (done ++ encodeCmd (Cmd.set k v))
        (alistInsert kd k ⟨fid, done.length, (encodeCmd (Cmd.set k v)).length⟩).1
        (alistInsert m k v).1
        (unc + (match (alistInsert kd k
          ⟨fid, done.length, (encodeCmd (Cmd.set k v)).length⟩).2 with
          | some old => old.len | none => 0))
        hfile2 (KdInv_insert hinv k v _ hok hspan hbound)
      exact ⟨kd', unc', hrun, hinv'⟩
    | remove k =>
      have hp : parseCmd (encodeAll (Cmd.remove k :: rest)) =
          some (.remove k, encodeAll rest) := by
        rw [hshape]
        exact parseCmd_encode _ (encodeAll rest)
      rw [load_log_step_remove hne hp, harith]
      obtain ⟨kd', unc', hrun, hinv'⟩ := ih (done ++ encodeCmd (Cmd.remove k))
        (alistRemove kd k).1 (alistRemove m k).1
        (unc + (match (alistRemove kd k).2 with | some old => old.len | none => 0) +
          ((done ++ encodeCmd (Cmd.remove k)).length - done.length))
        hfile2 (KdInv_remove hinv k)
      exact ⟨kd', unc', hrun, hinv'⟩

theorem alistLookup_insert_isSome_of {κ α : Type} [DecidableEq κ]
    {l : List (κ × α)} {k' : κ} (k : κ) (v : α)
    (h : (alistLookup l k').isSome) :
    (alistLookup (alistInsert l k v).1 k').isSome := by
  by_cases hk : k' = k
  · subst hk
    rw [alistLookup_insert_self]
    rfl
  · rw [alistLookup_insert_ne _ _ hk]
    exact h

theorem alistLookup_insert_self_isSome {κ α : Type} [DecidableEq κ]
    (l : List (κ × α)) (k : κ) (v : α) :
    (alistLookup (alistInsert l k v).1 k).isSome := by
  rw [alistLookup_insert_self]
  rfl

theorem loadAll_replay (disk : List (Nat × List Char)) (okId : Nat → Prop) :
    ∀ (hist : List (Nat × List Cmd)) (kd : List (String × CmdPos))
      (m : List (String × String)) (rs : List (Nat × Nat)) (unc : Nat),
    (∀ p ∈ hist, alistLookup disk p.1 = some (encodeAll p.2) ∧ okId p.1) →
    KdInv disk okId kd m →
    ∃ kd' rs' unc',
      KvsEngine.loadAll disk (hist.map Prod.fst) kd rs unc = .ok (kd', rs', unc') ∧
      KdInv disk okId kd' (hist.foldl (fun m p => replayFile m p.2) m) ∧
      (∀ fid, (alistLookup rs fid).isSome → (alistLookup rs' fid).isSome) ∧
      (∀ p ∈ hist, (alistLookup rs' p.1).isSome) := by
  intro hist
  induction hist with
  | nil =>
    intro kd m rs unc _ hinv
    exact ⟨kd, rs, unc, rfl, hinv, fun fid h => h, by simp⟩
  | cons p rest ih =>
    intro kd m rs unc hh hinv
    obtain ⟨fid, cmds⟩ := p
    have hdisk := (hh (fid, cmds) (by simp)).1
    have hokf := (hh (fid, cmds) (by simp)).2
    obtain ⟨kd2, unc2, hrun, hinv2⟩ := load_log_replay disk fid okId hokf cmds [] kd m 0
      (by rw [List.nil_append]; exact hdisk) hinv
    rw [show ([] : List Char).length = 0 from rfl] at hrun
    simp only [List.map_cons, KvsEngine.loadAll]
    rw [hdisk]
    dsimp only [Option.getD_some]
    rw [hrun]
    dsimp only
    obtain ⟨kd', rs', unc', hrun', hinv', hpres, hmem⟩ := ih kd2 (replayFile m cmds)
      ((alistInsert rs fid (encodeAll cmds).length).1) (unc + unc2)
      (fun q hq => hh q (by simp [hq])) hinv2
    refine ⟨kd', rs', unc', hrun', hinv', ?_, ?_⟩
    · intro fid2 h2
      exact hpres fid2 (alistLookup_insert_isSome_of fid _ h2)
    · intro q hq
      rcases List.mem_cons.mp hq with hq | hq
      · rw [hq]
        exact hpres fid (alistLookup_insert_self_isSome _ _ _)
      · exact hmem q hq

theorem check_point_evict_zero (rs : List (Nat × Nat)) :
    KvsEngine.check_point_evict 0 rs = rs := by
  cases rs with
  | nil => rfl
  | cons p t =>
    obtain ⟨fid, pos⟩ := p
    simp [KvsEngine.check_point_evict]

theorem insertSorted_of_sorted {l : List Nat} {a : Nat}
    (h : List.Chain' (· < ·) (a :: l)) : KvsEngine.insertSorted a l = a :: l := by
  cases l with
  | nil => rfl
  | cons b t =>
    have hab : a < b := (List.chain'_cons.mp h).1
    simp [KvsEngine.insertSorted, Nat.le_of_lt hab]

theorem sorted_file_list_of_sorted {disk : List (Nat × List Char)}
    (h : List.Chain' (· < ·) (disk.map Prod.fst)) :
    KvsEngine.sorted_file_list disk = disk.map Prod.fst := by
  unfold KvsEngine.sorted_file_list
  induction disk with
  | nil => rfl
  | cons p rest ih =>
    simp only [List.map_cons, List.foldr_cons]
    rw [ih (List.Chain'.tail h)]
    exact insertSorted_of_sorted h

theorem alistLookup_of_nodup_mem {κ α : Type} [DecidableEq κ]
    {l : List (κ × α)} {k : κ} {v : α}
    (hnd : (l.map Prod.fst).Nodup) (hmem : (k, v) ∈ l) :
    alistLookup l k = some v := by
  induction l with
  | nil => simp at hmem
  | cons p t ih =>
    obtain ⟨k0, v0⟩ := p
    rcases List.mem_cons.mp hmem with heq | hmem2
    · injection heq with h1 h2
      subst h1; subst h2
      simp [alistLookup]
    · have hk : ¬ k = k0 := by
        intro hcontra
        subst hcontra
        have : k ∈ t.map Prod.fst := List.mem_map_of_mem Prod.fst hmem2
        exact (List.nodup_cons.mp hnd).1 this
      simp only [alistLookup, if_neg hk]
      exact ih (List.nodup_cons.mp hnd).2 hmem2

theorem sorted_mem_le_getLast {l : List Nat} (h : List.Chain' (· < ·) l) :
    ∀ x ∈ l, x ≤ l.getLast?.getD 0 := by
  induction l with
  | nil => intro x hx; simp at hx
  | cons a t ih =>
    intro x hx
    cases t with
    | nil =>
      simp at hx
      simp [hx]
    | cons b t2 =>
      have hab : a < b := (List.chain'_cons.mp h).1
      have htail := ih (List.Chain'.tail h)
      rw [List.getLast?_cons_cons]
      rcases List.mem_cons.mp hx with hx | hx
      · subst hx
        have hb := htail b (by simp)
        omega
      · exact htail x hx

/-- C2: dropping the engine and reopening a directory whose log files hold
the encoded history (files in ascending id order, as a store reached by
set/remove operations leaves them) succeeds, picks
`max(existing ids) + 1` (or `1` for an empty directory) as the new active
file id after scanning the `.log` files in ascending order, and rebuilds a
keydir under which every key's `get` returns its last written value —
last-writer-wins over the replayed records with `Remove` deleting — while
keys never written return `None`. -/
theorem C2_reopen_replays_history (hist : List (Nat × List Cmd))
    (hsorted : List.Chain' (· < ·) (hist.map Prod.fst)) :
    ∃ s, KvsEngine.openStore (hist.map fun p => (p.1, encodeAll p.2)) = .ok s ∧
      s.current_file_id = ((hist.map Prod.fst).getLast?.getD 0) + 1 ∧
      ∀ k, (KvsEngine.get s k).1 = .ok (alistLookup (replayHistory hist) k) := by
  set disk := hist.map fun p => (p.1, encodeAll p.2) with hdisk
  have hids : disk.map Prod.fst = hist.map Prod.fst := by
    rw [hdisk, List.map_map]
    rfl
  have hsorted2 : List.Chain' (· < ·) (disk.map Prod.fst) := by
    rw [hids]
    exact hsorted
  have hnodup : (hist.map Prod.fst).Nodup := by
    have hp := List.chain'_iff_pairwise.mp hsorted
    exact hp.imp (fun h => Nat.ne_of_lt h)
  have hlookup : ∀ p ∈ hist, alistLookup disk p.1 = some (encodeAll p.2) := by
    intro p hp
    have hmem : (p.1, encodeAll p.2) ∈ disk := by
      rw [hdisk]
      exact List.mem_map_of_mem _ hp
    have hnd : (disk.map Prod.fst).Nodup := by
      rw [hids]
      exact hnodup
    exact alistLookup_of_nodup_mem hnd hmem
  obtain ⟨kd', rs', unc', hrun, hinv, hpres, hmemr⟩ :=
    loadAll_replay disk (fun fid => fid ∈ hist.map Prod.fst) hist [] [] [] 0
      (fun p hp => ⟨hlookup p hp, List.mem_map_of_mem Prod.fst hp⟩)
      (KdInv_nil disk _)
  unfold KvsEngine.openStore
  rw [sorted_file_list_of_sorted hsorted2, hids]
  dsimp only
  rw [hrun]
  dsimp only
  refine ⟨_, rfl, rfl, ?_⟩
  intro k
  have hfresh : ∀ fid, fid ∈ hist.map Prod.fst →
      ¬ fid = (hist.map Prod.fst).getLast?.getD 0 + 1 := by
    intro fid hfid
    have := sorted_mem_le_getLast hsorted fid hfid
    omega
  have hinv1 : KdInv (KvsEngine.new_log_file disk
      ((hist.map Prod.fst).getLast?.getD 0 + 1)) (fun fid => fid ∈ hist.map Prod.fst)
      kd' (replayHistory hist) := by
    exact KdInv_mono_files
      (fun fid hfid => new_log_file_lookup_ne disk (hfresh fid hfid)) hinv
  obtain ⟨hiso, hval⟩ := hinv1
  cases hk : alistLookup kd' k with
  | none =>
    cases hm : alistLookup (replayHistory hist) k with
    | some v =>
      exfalso
      have h2 := (hiso k).mpr (by rw [hm]; rfl)
      rw [hk] at h2
      simp at h2
    | none =>
      unfold KvsEngine.get
      dsimp only
      rw [hk]
  | some cp =>
    obtain ⟨hokf, v, hv, hspan, hbound⟩ := hval k cp hk
    unfold KvsEngine.get
    dsimp only
    rw [hk]
    unfold KvsEngine.read
    dsimp only
    rw [check_point_evict_zero]
    have hrdr : (alistLookup ((alistInsert rs'
        ((hist.map Prod.fst).getLast?.getD 0 + 1) 0).1) cp.file_id).isSome := by
      apply alistLookup_insert_isSome_of
      obtain ⟨q, hq, hq1⟩ := List.mem_map.mp hokf
      rw [← hq1]
      exact hmemr q hq
    obtain ⟨rpos, hrpos⟩ := Option.isSome_iff_exists.mp hrdr
    rw [hrpos]
    dsimp only
    have hraw : (((alistLookup (KvsEngine.new_log_file disk
        ((hist.map Prod.fst).getLast?.getD 0 + 1)) cp.file_id).getD
        []).drop cp.kv_pos).take cp.len = encodeCmd (.set k v) := hspan
    rw [hraw]
    rw [show decodeOne (encodeCmd (.set k v)) = some (.set k v) from by
      unfold decodeOne
      rw [parseCmd_encode_nil]]
    dsimp only
    rw [hv]

/-- C2 witness: reopening a concrete two-file history (an overwrite, a
remove, and a later file overriding an earlier one) returns the
last-written values, `None` for unwritten keys, and active id `max + 1`. -/
theorem C2_reopen_replays_history_witness :
    (KvsEngine.openStore (([(1, [Cmd.set "a" "1", Cmd.remove "a", Cmd.set "b" "2"]),
        (2, [Cmd.set "a" "3"])] : List (Nat × List Cmd)).map
          fun p => (p.1, encodeAll p.2))).map
      (fun s => ((KvsEngine.get s "a").1, (KvsEngine.get s "b").1,
        (KvsEngine.get s "zz").1, s.current_file_id)) =
    .ok (.ok (some "3"), .ok (some "2"), .ok none, 3) := by
  obtain ⟨s, hs, hcur, hget⟩ := C2_reopen_replays_history
    [(1, [Cmd.set "a" "1", Cmd.remove "a", Cmd.set "b" "2"]), (2, [Cmd.set "a" "3"])]
    (by norm_num [List.chain'_cons, List.chain'_singleton])
  rw [hs]
  simp only [Except.map]
  rw [hget "a", hget "b", hget "zz", hcur]
  decide
